import Mathlib

/-!
# MeshLabLite: geometry core of `main.cpp`

A shallow embedding of the mesh pipeline of `src/main.cpp`: the OBJ loader,
the face and vertex normals, noise injection, Laplacian smoothing and the
denoise key handling of the render loop.

Conventions of the embedding.

* The functions are written once, over any number type `α` with the
  operations they use, and `std::sqrt` is an explicit argument
  `sqrt : α → α`.  Exact arithmetic is the instance at a field (`ℚ` for
  evaluation, `ℝ` where a square root is needed); the arithmetic of the
  source, `float`, is the instance at `F32`, IEEE 754 binary32 with
  round-to-nearest-even after every operation.  The loader is stated at
  `F32` throughout.
* `std::vector` is `List`.  `vertices[k]` with `k` outside the vector is
  undefined behaviour in the source; the embedding returns `none` there, so
  every function that indexes a vector returns an `Option`.
* `int` face indices and `denoiseLevel` are `Int`; the counters of the loops
  are `Nat` (they only ever count upwards from zero).
* The random generator of `addNoiseToVertices` and the keys polled by the
  render loop are inputs: a sequence of samples and a list of frames.
-/

namespace MeshLabLite

/-! ## Data model (`main.cpp` lines 16-26) -/

/-- Record `struct Vertex { float x, y, z; }`. -/
@[ext]
structure Vertex (α : Type) where
  x : α
  y : α
  z : α
deriving DecidableEq, Repr

/-- Record `struct Face { int v1, v2, v3; }`. -/
structure Face where
  v1 : Int
  v2 : Int
  v3 : Int
deriving DecidableEq, Repr

/-- Record `struct Normal { float x, y, z; }`. -/
@[ext]
structure Normal (α : Type) where
  x : α
  y : α
  z : α
deriving DecidableEq, Repr

/-- Read `vertices[idx]` for an `int` index: defined only inside the vector. -/
def vertexAt {α : Type} (vertices : List (Vertex α)) (idx : Int) : Option (Vertex α) :=
  if 0 ≤ idx then vertices[idx.toNat]? else none

/-! ## Laplacian smoothing (`main.cpp` lines 123-168) -/

/-- One of the three blocks `if (face.vk != i) { sum += vertices[face.vk]; count++; }`
of lines 133-150.  The comparison of the `int` index with the `size_t`
counter `i` is equality of the two numbers (a negative index converts to a
value above every vector size). -/
def addNeighbour {α : Type} [Add α] (vertices : List (Vertex α)) (i : Nat) (idx : Int)
    (acc : Vertex α × Nat) : Option (Vertex α × Nat) :=
  if idx ≠ (i : Int) then
    match vertexAt vertices idx with
    | some p => some (⟨acc.1.x + p.x, acc.1.y + p.y, acc.1.z + p.z⟩, acc.2 + 1)
    | none => none
  else some acc

/-- Body of the inner loop over the faces, lines 132-151. -/
def scanFace {α : Type} [Add α] (vertices : List (Vertex α)) (i : Nat)
    (acc : Vertex α × Nat) (face : Face) : Option (Vertex α × Nat) :=
  if face.v1 = (i : Int) ∨ face.v2 = (i : Int) ∨ face.v3 = (i : Int) then
    (addNeighbour vertices i face.v1 acc).bind fun a1 =>
    (addNeighbour vertices i face.v2 a1).bind fun a2 =>
    addNeighbour vertices i face.v3 a2
  else some acc

/-- Inner loop `for (const auto& face : faces)` of lines 127-152, started
from `sum = {0, 0, 0}` and `count = 0`. -/
def scanFaces {α : Type} [Add α] [Zero α] (vertices : List (Vertex α)) (i : Nat)
    (faces : List Face) : Option (Vertex α × Nat) :=
  faces.foldlM (scanFace vertices i) (⟨0, 0, 0⟩, 0)

/-- Body of the outer loop for the index `i`, lines 127-164: scan the faces,
and when `count > 0` divide the sum by the count and move `newVertices[i]`
towards it, reading the old position from `vertices[i]`. -/
def smoothVertex {α : Type} [Add α] [Sub α] [Mul α] [Div α] [Zero α] [NatCast α]
    (vertices : List (Vertex α)) (faces : List Face)
    (smoothingFactor : α) (newVertices : List (Vertex α)) (i : Nat) :
    Option (List (Vertex α)) :=
  match scanFaces vertices i faces with
  | none => none
  | some (sum, count) =>
    if count > 0 then
      let sx := sum.x / (count : α)
      let sy := sum.y / (count : α)
      let sz := sum.z / (count : α)
      match vertices[i]?, newVertices[i]? with
      | some old, some nv =>
        some (newVertices.set i
          ⟨nv.x + (sx - old.x) * smoothingFactor,
           nv.y + (sy - old.y) * smoothingFactor,
           nv.z + (sz - old.z) * smoothingFactor⟩)
      | _, _ => none
    else some newVertices

/-- Function `laplacianSmoothing`: `newVertices` starts as a copy of
`vertices`, the loop runs over `i = 0 .. vertices.size() - 1`, and the
result is the value assigned back to `vertices` on line 167. -/
def laplacianSmoothing {α : Type} [Add α] [Sub α] [Mul α] [Div α] [Zero α] [NatCast α]
    (vertices : List (Vertex α)) (faces : List Face)
    (smoothingFactor : α) : Option (List (Vertex α)) :=
  (List.range vertices.length).foldlM (smoothVertex vertices faces smoothingFactor) vertices

/-! ### Specification side of smoothing -/

/-- All three indices of every face lie in `[0, n)`. -/
def FacesInRange (n : Nat) (faces : List Face) : Prop :=
  ∀ f ∈ faces, (0 ≤ f.v1 ∧ f.v1 < n) ∧ (0 ≤ f.v2 ∧ f.v2 < n) ∧ (0 ≤ f.v3 ∧ f.v3 < n)

instance (n : Nat) (faces : List Face) : Decidable (FacesInRange n faces) := by
  unfold FacesInRange; infer_instance

/-- Face `f` contains the index `i`. -/
def incident (f : Face) (i : Nat) : Prop :=
  f.v1 = (i : Int) ∨ f.v2 = (i : Int) ∨ f.v3 = (i : Int)

instance (f : Face) (i : Nat) : Decidable (incident f i) := by
  unfold incident; infer_instance

/-- The other vertices of face `f` seen from `i`: its entries different from `i`. -/
def otherVertices (f : Face) (i : Nat) : List Int :=
  [f.v1, f.v2, f.v3].filter fun j => j ≠ (i : Int)

/-- The neighbour entries of `i`: the other vertices of every face containing
`i`, a neighbour being listed once per shared face. -/
def neighbourEntries (faces : List Face) (i : Nat) : List Int :=
  (faces.filter fun f => incident f i).flatMap fun f => otherVertices f i

/-- Number of summed neighbour entries of `i`. -/
def neighbourCount (faces : List Face) (i : Nat) : Nat :=
  (neighbourEntries faces i).length

/-- Componentwise sum of a list of positions. -/
def sumPositions {α : Type} [Add α] [Zero α] : List (Vertex α) → Vertex α
  | [] => ⟨0, 0, 0⟩
  | p :: ps => ⟨p.x + (sumPositions ps).x, p.y + (sumPositions ps).y, p.z + (sumPositions ps).z⟩

/-- Accumulator `(sum, count)` of the inner loop after the entries `js` were added. -/
def accAdd {α : Type} [Add α] [Zero α] (vs : List (Vertex α)) (acc : Vertex α × Nat)
    (js : List Int) : Vertex α × Nat :=
  (⟨acc.1.x + (sumPositions (js.filterMap fun j => vertexAt vs j)).x,
    acc.1.y + (sumPositions (js.filterMap fun j => vertexAt vs j)).y,
    acc.1.z + (sumPositions (js.filterMap fun j => vertexAt vs j)).z⟩, acc.2 + js.length)

/-- Sum of the positions, in `old`, of the neighbour entries of `i`. -/
def neighbourSum {α : Type} [Add α] [Zero α] (old : List (Vertex α)) (faces : List Face)
    (i : Nat) : Vertex α :=
  sumPositions ((neighbourEntries faces i).filterMap fun j => vertexAt old j)

/-- Neighbour average of `i`: the neighbour sum divided by the neighbour count. -/
def neighbourAvg {α : Type} [Field α] (old : List (Vertex α)) (faces : List Face)
    (i : Nat) : Vertex α :=
  ⟨(neighbourSum old faces i).x / (neighbourCount faces i : α),
   (neighbourSum old faces i).y / (neighbourCount faces i : α),
   (neighbourSum old faces i).z / (neighbourCount faces i : α)⟩

/-- Linear interpolation `p + (a - p) * t`, componentwise. -/
def lerp {α : Type} [Field α] (p a : Vertex α) (t : α) : Vertex α :=
  ⟨p.x + (a.x - p.x) * t, p.y + (a.y - p.y) * t, p.z + (a.z - p.z) * t⟩

/-- Position of vertex `i` after one pass, as the specification words it. -/
def smoothedPosition {α : Type} [Field α] (old : List (Vertex α)) (faces : List Face)
    (t : α) (i : Nat) (p : Vertex α) : Vertex α :=
  if 0 < neighbourCount faces i then lerp p (neighbourAvg old faces i) t else p

/-- The tetrahedron of the concrete scenario. -/
def tetraVertices : List (Vertex ℚ) :=
  [⟨0, 0, 0⟩, ⟨3, 0, 0⟩, ⟨0, 3, 0⟩, ⟨0, 0, 3⟩]

/-- Faces `(0,1,2), (0,1,3), (0,2,3), (1,2,3)`. -/
def tetraFaces : List Face :=
  [⟨0, 1, 2⟩, ⟨0, 1, 3⟩, ⟨0, 2, 3⟩, ⟨1, 2, 3⟩]

/-! ## Face normal (`main.cpp` lines 81-106) -/

/-- Lines 83-95 of `calculateFaceNormal`: the cross product of the edges
`v2 - v1` and `v3 - v1`, before normalisation. -/
def edgeCross {α : Type} [Sub α] [Mul α] (v1 v2 v3 : Vertex α) : Normal α :=
  let ux := v2.x - v1.x
  let uy := v2.y - v1.y
  let uz := v2.z - v1.z
  let vx := v3.x - v1.x
  let vy := v3.y - v1.y
  let vz := v3.z - v1.z
  ⟨uy * vz - uz * vy, uz * vx - ux * vz, ux * vy - uy * vx⟩

/-- Line 98 (and lines 383-385): `std::sqrt(n.x * n.x + n.y * n.y + n.z * n.z)`. -/
def normalLength {α : Type} [Add α] [Mul α] (sqrt : α → α) (n : Normal α) : α :=
  sqrt (n.x * n.x + n.y * n.y + n.z * n.z)

/-- Lines 99-103 (and lines 386-390): divide by `length` when `length != 0`,
otherwise leave the vector as it is. -/
def normalizeGuarded {α : Type} [Add α] [Mul α] [Div α] [Zero α] [DecidableEq α] (sqrt : α → α) (n : Normal α) :
    Normal α :=
  let length := normalLength sqrt n
  if length ≠ 0 then ⟨n.x / length, n.y / length, n.z / length⟩ else n

/-- Function `calculateFaceNormal`. -/
def calculateFaceNormal {α : Type} [Add α] [Sub α] [Mul α] [Div α] [Zero α] [DecidableEq α]
    (sqrt : α → α)
    (v1 v2 v3 : Vertex α) : Normal α :=
  normalizeGuarded sqrt (edgeCross v1 v2 v3)

/-! ### Specification side of the face normal -/

/-- Dot product of a normal with the edge from `a` to `b`. -/
def dotEdge {α : Type} [Field α] (n : Normal α) (a b : Vertex α) : α :=
  n.x * (b.x - a.x) + n.y * (b.y - a.y) + n.z * (b.z - a.z)

/-- Squared Euclidean length. -/
def normSq {α : Type} [Field α] (n : Normal α) : α :=
  n.x * n.x + n.y * n.y + n.z * n.z

/-- Division of a vector by a scalar. -/
def scaleDiv {α : Type} [Field α] (n : Normal α) (c : α) : Normal α :=
  ⟨n.x / c, n.y / c, n.z / c⟩

/-- The three points lie on one line `p + t * d` (coincident points included). -/
def Collinear3 {α : Type} [Field α] (v1 v2 v3 : Vertex α) : Prop :=
  ∃ (p d : Vertex α) (t1 t2 t3 : α),
    v1 = ⟨p.x + t1 * d.x, p.y + t1 * d.y, p.z + t1 * d.z⟩ ∧
    v2 = ⟨p.x + t2 * d.x, p.y + t2 * d.y, p.z + t2 * d.z⟩ ∧
    v3 = ⟨p.x + t3 * d.x, p.y + t3 * d.y, p.z + t3 * d.z⟩

/-! ## Vertex normals (`main.cpp` lines 342-392) -/

/-- Line 345: `calculateFaceNormal(vertices[face.v1], vertices[face.v2], vertices[face.v3])`. -/
def faceNormalOf {α : Type} [Field α] [DecidableEq α] (sqrt : α → α)
    (vertices : List (Vertex α)) (face : Face) : Option (Normal α) :=
  match vertexAt vertices face.v1, vertexAt vertices face.v2, vertexAt vertices face.v3 with
  | some a, some b, some c => some (calculateFaceNormal sqrt a b c)
  | _, _, _ => none

/-- Lines 343-347: one face normal per face, in face order. -/
def computeFaceNormals {α : Type} [Field α] [DecidableEq α] (sqrt : α → α)
    (vertices : List (Vertex α)) (faces : List Face) : Option (List (Normal α)) :=
  faces.mapM (faceNormalOf sqrt vertices)

/-- One of the three blocks of lines 358-371: add `normal` to
`vertexNormals[idx]` and increment `vertexFaceCount[idx]`. -/
def addNormalAt {α : Type} [Add α] (normal : Normal α) (idx : Int)
    (acc : List (Normal α) × List Nat) : Option (List (Normal α) × List Nat) :=
  if 0 ≤ idx then
    match acc.1[idx.toNat]?, acc.2[idx.toNat]? with
    | some m, some c =>
      some (acc.1.set idx.toNat ⟨m.x + normal.x, m.y + normal.y, m.z + normal.z⟩,
        acc.2.set idx.toNat (c + 1))
    | _, _ => none
  else none

/-- Body of the loop of lines 353-372 for the face `faces[i]` and its normal
`faceNormals[i]`. -/
def accumulateFace {α : Type} [Add α] (acc : List (Normal α) × List Nat)
    (fn : Face × Normal α) : Option (List (Normal α) × List Nat) :=
  (addNormalAt fn.2 fn.1.v1 acc).bind fun a1 =>
  (addNormalAt fn.2 fn.1.v2 a1).bind fun a2 =>
  addNormalAt fn.2 fn.1.v3 a2

/-- Body of the loop of lines 375-392 for one vertex: when its face count is
positive, divide the summed normal by the count and normalise under the guard
`length != 0`. -/
def finishVertexNormal {α : Type} [Field α] [DecidableEq α] (sqrt : α → α)
    (n : Normal α) (count : Nat) : Normal α :=
  if count > 0 then
    normalizeGuarded sqrt ⟨n.x / (count : α), n.y / (count : α), n.z / (count : α)⟩
  else n

/-- Lines 343-392 of `main`: the face normals, then the vertex normals:
`vertexNormals` and `vertexFaceCount` start as `vertices.size()` zeros, every
face adds its normal to its three vertices, and the last loop rewrites each
entry from its own value and count. -/
def computeVertexNormals {α : Type} [Field α] [DecidableEq α] (sqrt : α → α)
    (vertices : List (Vertex α)) (faces : List Face) : Option (List (Normal α)) :=
  match computeFaceNormals sqrt vertices faces with
  | none => none
  | some faceNormals =>
    match (faces.zip faceNormals).foldlM accumulateFace
        (List.replicate vertices.length ⟨0, 0, 0⟩, List.replicate vertices.length 0) with
    | none => none
    | some (vertexNormals, vertexFaceCount) =>
      some (List.zipWith (finishVertexNormal sqrt) vertexNormals vertexFaceCount)

/-! ### Specification side of the vertex normals -/

/-- Componentwise sum of a list of normals. -/
def sumNormals {α : Type} [Add α] [Zero α] : List (Normal α) → Normal α
  | [] => ⟨0, 0, 0⟩
  | n :: ns => ⟨n.x + (sumNormals ns).x, n.y + (sumNormals ns).y, n.z + (sumNormals ns).z⟩

/-- The faces incident to vertex `i`, in face order. -/
def incidentFaces (faces : List Face) (i : Nat) : List Face :=
  faces.filter fun f => incident f i

/-- The face normals of the faces incident to vertex `i`. -/
def incidentNormals {α : Type} [Field α] [DecidableEq α] (sqrt : α → α)
    (vertices : List (Vertex α)) (faces : List Face) (i : Nat) : List (Normal α) :=
  (incidentFaces faces i).filterMap (faceNormalOf sqrt vertices)

/-- Vertex normal of `i` as the specification words it, over the reals: with
`k` incident faces whose normals sum to `S`, the vector `normalize(S / k)`
when `k >= 1` and `S` is non-zero, the zero vector otherwise. -/
def specVertexNormal {α : Type} [Field α] [DecidableEq α] (sqrt : α → α)
    (vertices : List (Vertex α)) (faces : List Face) (i : Nat) : Normal α :=
  let k := (incidentFaces faces i).length
  let S := sumNormals (incidentNormals sqrt vertices faces i)
  if 1 ≤ k ∧ S ≠ ⟨0, 0, 0⟩ then
    scaleDiv (scaleDiv S (k : α)) (sqrt (normSq (scaleDiv S (k : α))))
  else ⟨0, 0, 0⟩

/-- Number of times the index `i` occurs in face `f`. -/
def occurrences (f : Face) (i : Nat) : Nat :=
  (if f.v1 = (i : Int) then 1 else 0) + (if f.v2 = (i : Int) then 1 else 0)
    + (if f.v3 = (i : Int) then 1 else 0)

/-- Sum over the faces of `occurrences f i` times the normal paired with `f`. -/
def weightedNormalSum {α : Type} [Field α] : List (Face × Normal α) → Nat → Normal α
  | [], _ => ⟨0, 0, 0⟩
  | fn :: rest, i =>
    ⟨(occurrences fn.1 i : α) * fn.2.x + (weightedNormalSum rest i).x,
     (occurrences fn.1 i : α) * fn.2.y + (weightedNormalSum rest i).y,
     (occurrences fn.1 i : α) * fn.2.z + (weightedNormalSum rest i).z⟩

/-- Sum over the faces of `occurrences f i`. -/
def occurrenceSum {β : Type} : List (Face × β) → Nat → Nat
  | [], _ => 0
  | fn :: rest, i => occurrences fn.1 i + occurrenceSum rest i

/-- Two triangles sharing the edge `(0,0,0)-(1,0,0)`, one in the plane
`z = 0` and one in the plane `y = 0`. -/
def hingeVertices {α : Type} [Field α] : List (Vertex α) :=
  [⟨0, 0, 0⟩, ⟨1, 0, 0⟩, ⟨0, 1, 0⟩, ⟨0, 0, 1⟩]

/-- Faces `(0,1,2)` and `(0,3,1)` of the hinge. -/
def hingeFaces : List Face :=
  [⟨0, 1, 2⟩, ⟨0, 3, 1⟩]

/-! ## Noise injection (`main.cpp` lines 109-120) -/

/-- Body of the loop of lines 114-119 for the index `i`; `samples i` is the
value `dis(gen)` drawn in that iteration. -/
def noiseStep {α : Type} [Field α] (vertexNormals : List (Normal α)) (noiseStrength : α)
    (samples : Nat → α) (vertices : List (Vertex α)) (i : Nat) : Option (List (Vertex α)) :=
  match vertices[i]?, vertexNormals[i]? with
  | some v, some n =>
    let noise := noiseStrength * samples i
    some (vertices.set i ⟨v.x + n.x * noise, v.y + n.y * noise, v.z + n.z * noise⟩)
  | _, _ => none

/-- Function `addNoiseToVertices`; the generator built on lines 110-112 is
represented by the sequence `samples` of the values it yields in this call. -/
def addNoiseToVertices {α : Type} [Field α] (vertices : List (Vertex α))
    (vertexNormals : List (Normal α)) (noiseStrength : α) (samples : Nat → α) :
    Option (List (Vertex α)) :=
  (List.range vertices.length).foldlM (noiseStep vertexNormals noiseStrength samples) vertices

/-! ## Key handling of the render loop (`main.cpp` lines 472-522) -/

/-- The data the loop reads but never writes: `faces`, `vertexNormals`,
`noiseStrength` and `smoothingFactor`. -/
structure Scene (α : Type) where
  faces : List Face
  vertexNormals : List (Normal α)
  noiseStrength : α
  smoothingFactor : α

/-- The variables of the loop that the N and M branches read or write:
`vertices`, `originalVertices`, `keyDPressed`, `denoiseLevel`.  (`noiseAdded`
only decides whether the display buffer is refilled and is left out.) -/
structure LoopState (α : Type) where
  vertices : List (Vertex α)
  originalVertices : List (Vertex α)
  keyDPressed : Bool
  denoiseLevel : Int

/-- Lines 477-479: `originalVertices = vertices`, `keyDPressed = false`,
`denoiseLevel = 0`. -/
def initialState {α : Type} (vertices : List (Vertex α)) : LoopState α :=
  ⟨vertices, vertices, false, 0⟩

/-- Lines 504-507: while key N is down, `addNoiseToVertices` runs on `vertices`. -/
def noiseKey {α : Type} [Field α] (sc : Scene α) (keyN : Bool) (samples : Nat → α)
    (s : LoopState α) : Option (LoopState α) :=
  if keyN then
    match addNoiseToVertices s.vertices sc.vertexNormals sc.noiseStrength samples with
    | some v => some { s with vertices := v }
    | none => none
  else some s

/-- Lines 509-522: the key-M branch. -/
def denoiseKey {α : Type} [Field α] (sc : Scene α) (keyM : Bool) (s : LoopState α) :
    Option (LoopState α) :=
  if keyM then
    if !s.keyDPressed then
      let level := s.denoiseLevel + 1
      if level > 3 then
        some { s with keyDPressed := true, denoiseLevel := 0, vertices := s.originalVertices }
      else
        match laplacianSmoothing s.vertices sc.faces sc.smoothingFactor with
        | some v => some { s with keyDPressed := true, denoiseLevel := level, vertices := v }
        | none => none
    else some s
  else some { s with keyDPressed := false }

/-- What one iteration of the loop receives from outside: the state of the
keys N and M and the values the generator yields if noise is added. -/
structure FrameInput (α : Type) where
  keyN : Bool
  keyM : Bool
  samples : Nat → α

/-- One iteration of the loop, restricted to the N and M branches, in source order. -/
def frame {α : Type} [Field α] (sc : Scene α) (s : LoopState α) (inp : FrameInput α) :
    Option (LoopState α) :=
  (noiseKey sc inp.keyN inp.samples s).bind (denoiseKey sc inp.keyM)

/-- A run of the loop over a sequence of frames. -/
def runFrames {α : Type} [Field α] (sc : Scene α) (frames : List (FrameInput α))
    (s : LoopState α) : Option (LoopState α) :=
  frames.foldlM (frame sc) s

/-- The key-M branch alone over a sequence of frames, each given by the
boolean "key M is down". -/
def runKeys {α : Type} [Field α] (sc : Scene α) (keys : List Bool) (s : LoopState α) :
    Option (LoopState α) :=
  keys.foldlM (fun st keyM => denoiseKey sc keyM st) s

/-! ### Specification side of the key handling -/

/-- Number of advance triggers in a sequence of frames: frames with key M down
that follow a frame with key M up (`pressed` is `keyDPressed` before the first
frame). -/
def countTriggers {α : Type} : List (FrameInput α) → Bool → Nat
  | [], _ => 0
  | inp :: rest, pressed =>
    (if inp.keyM && !pressed then 1 else 0) + countTriggers rest inp.keyM

/-- Key M state left by a sequence of frames. -/
def pressedAfter {α : Type} : List (FrameInput α) → Bool → Bool
  | [], pressed => pressed
  | inp :: rest, _ => pressedAfter rest inp.keyM

/-- Invariant of the loop state relative to the pristine snapshot `orig`. -/
def LoopInv {α : Type} (orig : List (Vertex α)) (s : LoopState α) : Prop :=
  s.originalVertices = orig ∧ s.vertices.length = orig.length ∧
    0 ≤ s.denoiseLevel ∧ s.denoiseLevel ≤ 3

/-- The tetrahedron as a scene, with one (stale) normal per vertex, noise
strength 1/100 and smoothing factor 1/2. -/
def tetraScene : Scene ℚ :=
  ⟨tetraFaces, [⟨0, 0, 1⟩, ⟨1, 0, 0⟩, ⟨0, 1, 0⟩, ⟨0, 0, 1⟩], 1 / 100, 1 / 2⟩

/-- Three presses of key M, each followed by a release, with key N held
during two of the frames. -/
def threePresses : List (FrameInput ℚ) :=
  [⟨false, true, fun _ => 0⟩, ⟨true, false, fun _ => 1 / 2⟩, ⟨false, true, fun _ => 0⟩,
   ⟨false, false, fun _ => 0⟩, ⟨true, true, fun i => -1 / (i + 1)⟩, ⟨true, false, fun _ => -1⟩]

/-! ## Single-precision arithmetic

The source computes in `float`.  Statements about exact arithmetic are made
at a field; statements about the code as it runs instantiate the same
definitions at the type `F32` below: IEEE 754 binary32 with
round-to-nearest-even after every operation (no fused multiply-add, no wider
intermediate precision).  The two zeros are identified; the only comparison
of the source on a `float`, `length != 0`, is then equality of values, also
for a NaN, which differs from zero. -/

/-- A binary32 value: a finite number, an infinity (`neg` for the negative
one) or a NaN. -/
inductive F32 where
  | fin (q : ℚ)
  | inf (neg : Bool)
  | nan
deriving DecidableEq, Repr

/-- Position of the leading bit of `n`, at most `fuel`: the number of times
`n` can be halved before it drops below 2. -/
def log2Fuel : Nat → Nat → Nat
  | 0, _ => 0
  | fuel + 1, n => if 2 ≤ n then log2Fuel fuel (n / 2) + 1 else 0

/-- Position of the leading bit of `n` (0 for `n = 0`). -/
def floorLog2 (n : Nat) : Nat :=
  log2Fuel n n

/-- Nearest integer to a non-negative rational, ties to the even one. -/
def roundHalfEven (x : ℚ) : Int :=
  let f := Rat.floor x
  let r := x - f
  if r < 1 / 2 then f
  else if 1 / 2 < r then f + 1
  else if f % 2 = 0 then f else f + 1

/-- Rounding of a rational to binary32: 24 significant bits, least exponent
`-126` (below it the spacing stays `2^-149`), ties to even, and an infinity
when the rounded magnitude reaches `2^128`.  The magnitude is measured in
units of `2^-149`; `k` is the exponent of the spacing in these units. -/
def F32.round (q : ℚ) : F32 :=
  let m : ℚ := (if q < 0 then -q else q) * 2 ^ 149
  let k : Nat := floorLog2 (Rat.floor m).toNat - 23
  let v : ℚ := (roundHalfEven (m / 2 ^ k) : ℚ) * 2 ^ k / 2 ^ 149
  if 2 ^ 128 ≤ v then F32.inf (decide (q < 0))
  else F32.fin (if q < 0 then -v else v)

/-- Negation. -/
def F32.neg : F32 → F32
  | F32.fin q => F32.fin (-q)
  | F32.inf s => F32.inf (!s)
  | F32.nan => F32.nan

/-- Addition. -/
def F32.add : F32 → F32 → F32
  | F32.fin a, F32.fin b => F32.round (a + b)
  | F32.fin _, F32.inf s => F32.inf s
  | F32.inf s, F32.fin _ => F32.inf s
  | F32.inf s, F32.inf t => if s = t then F32.inf s else F32.nan
  | F32.nan, _ => F32.nan
  | _, F32.nan => F32.nan

/-- Subtraction. -/
def F32.sub (a b : F32) : F32 :=
  F32.add a (F32.neg b)

/-- Multiplication. -/
def F32.mul : F32 → F32 → F32
  | F32.fin a, F32.fin b => F32.round (a * b)
  | F32.fin a, F32.inf s => if a = 0 then F32.nan else F32.inf (xor s (decide (a < 0)))
  | F32.inf s, F32.fin b => if b = 0 then F32.nan else F32.inf (xor s (decide (b < 0)))
  | F32.inf s, F32.inf t => F32.inf (xor s t)
  | F32.nan, _ => F32.nan
  | _, F32.nan => F32.nan

/-- Division.  With the zeros identified the sign of a quotient by zero is
taken from the dividend; no division of the source is reached with a zero
divisor. -/
def F32.div : F32 → F32 → F32
  | F32.fin a, F32.fin b =>
    if b = 0 then (if a = 0 then F32.nan else F32.inf (decide (a < 0)))
    else F32.round (a / b)
  | F32.fin _, F32.inf _ => F32.fin 0
  | F32.inf s, F32.fin b => F32.inf (xor s (decide (b < 0)))
  | F32.inf _, F32.inf _ => F32.nan
  | F32.nan, _ => F32.nan
  | _, F32.nan => F32.nan

/-- Integer square root, bit by bit from bit `b - 1` down: the largest `r`
extending the bits chosen so far with `r * r ≤ n`. -/
def isqrtBits (n : Nat) : Nat → Nat → Nat
  | 0, r => r
  | b + 1, r => if (r + 2 ^ b) * (r + 2 ^ b) ≤ n then isqrtBits n b (r + 2 ^ b)
    else isqrtBits n b r

/-- Integer square root. -/
def isqrt (n : Nat) : Nat :=
  isqrtBits n (floorLog2 n / 2 + 1) 0

/-- Square root, correctly rounded.  The root of `q * 4^100` lies in
`[s, s + 1)` with `s` its integer square root, at a scale where every
binary32 value and every midpoint between two of them is an integer, so the
root rounds like `s` when it is exact and like `s + 1/2` otherwise. -/
def F32.sqrt : F32 → F32
  | F32.fin q =>
    if q < 0 then F32.nan
    else
      let n : Nat := (Rat.floor (q * 4 ^ 100)).toNat
      let s : Nat := isqrt n
      let y : ℚ := if (n : ℚ) = q * 4 ^ 100 ∧ s * s = n then (s : ℚ) else (s : ℚ) + 1 / 2
      F32.round (y / 2 ^ 100)
  | F32.inf s => if s then F32.nan else F32.inf false
  | F32.nan => F32.nan

instance : Zero F32 := ⟨F32.fin 0⟩

instance : Add F32 := ⟨F32.add⟩

instance : Sub F32 := ⟨F32.sub⟩

instance : Mul F32 := ⟨F32.mul⟩

instance : Div F32 := ⟨F32.div⟩

/-- Conversion of a counter to `float`. -/
instance : NatCast F32 := ⟨fun n => F32.round n⟩

/-! ## OBJ loader (`main.cpp` lines 42-78)

The loader reads the file with `std::getline` and parses each line with
formatted extraction from a `std::istringstream`.  The stream is modelled by
its unread characters and its fail state.  Numeric extraction follows the
standard (C++11 and later, where a failed conversion stores zero) for decimal
input: optional sign and decimal digits for `int`; optional sign, digits,
optional fraction and optional decimal exponent for `float`, converted to the
nearest binary32 value.  Hexadecimal floats, `inf` and `nan` are not part of
the modelled grammar, and a number ends at the first character that cannot
continue it.  Where implementations of the library differ (the value stored
for a `float` that is too large, and whether a non-zero `float` below the
least normal number counts as a failure) the behaviour is a parameter
`NumLib`.  The statements about valid input only concern numbers that are
followed by white space or by the end of the line and, for `float`, that are
zero or in the normal range. -/

/-- Predicate `std::isspace` in the "C" locale: space and the characters 9 to 13. -/
def isSpace (c : Char) : Bool :=
  c.toNat = 32 || (9 ≤ c.toNat && c.toNat ≤ 13)

/-- Decimal digit. -/
def isDigit (c : Char) : Bool :=
  48 ≤ c.toNat && c.toNat ≤ 57

/-- Value of a run of decimal digits. -/
def digitsValue (ds : List Char) : Nat :=
  ds.foldl (fun n c => 10 * n + (c.toNat - 48)) 0

/-- The lines `std::getline` yields until it fails (line 50); `cur` holds the
characters of the current line, last first.  A final line without a newline
is still yielded; nothing is yielded after a final newline. -/
def getlinesAux : List Char → List Char → List (List Char)
  | [], cur => if cur.isEmpty then [] else [cur.reverse]
  | c :: cs, cur =>
    if c.toNat = 10 then cur.reverse :: getlinesAux cs [] else getlinesAux cs (c :: cur)

/-- The lines of a text. -/
def getlines (text : List Char) : List (List Char) :=
  getlinesAux text []

/-- State of `std::istringstream iss(line)`: the unread characters and
whether the stream has failed. -/
structure IStream where
  buf : List Char
  failed : Bool
deriving DecidableEq, Repr

/-- Line 53, `iss >> type` for a `std::string`: skip white space, then take
the characters up to the next white space; the stream fails when there is
none, and `type` is then empty. -/
def readWord (s : IStream) : List Char × IStream :=
  if s.failed then ([], s)
  else
    let b := s.buf.dropWhile isSpace
    let w := b.takeWhile fun c => !isSpace c
    (w, ⟨b.dropWhile fun c => !isSpace c, w.isEmpty⟩)

/-- Outcome of the conversion stage of a numeric extraction: a value and the
unread rest, or a failure together with the value that is stored anyway. -/
inductive NumGet (β : Type) where
  | ok (v : β) (rest : List Char)
  | fail (v : β)

/-- Optional sign in front of a number: `true` for a minus sign. -/
def readSign : List Char → Bool × List Char
  | c :: cs => if c = '-' then (true, cs) else if c = '+' then (false, cs) else (false, c :: cs)
  | [] => (false, [])

/-- Conversion for `int`: optional sign and at least one digit; without a
digit the value 0 is stored and the extraction fails; a value outside the
range of `int` is replaced by the nearest limit and the extraction fails. -/
def numGetInt (cs : List Char) : NumGet Int :=
  let sign := readSign cs
  let ds := sign.2.takeWhile isDigit
  if ds.isEmpty then NumGet.fail 0
  else
    let v : Int := if sign.1 then -(digitsValue ds : Int) else (digitsValue ds : Int)
    if v > 2147483647 then NumGet.fail 2147483647
    else if v < -2147483648 then NumGet.fail (-2147483648)
    else NumGet.ok v (sign.2.dropWhile isDigit)

/-- Fraction part after the integer digits: the digits after a decimal point,
if there is one, and the unread rest. -/
def readFraction : List Char → List Char × List Char
  | c :: cs => if c = '.' then (cs.takeWhile isDigit, cs.dropWhile isDigit) else ([], c :: cs)
  | [] => ([], [])

/-- Decimal number at the front of `cs`, exact, with the unread rest:
optional sign, digits with an optional fraction (at least one digit in all),
optional exponent `e` or `E` with an optional sign and at least one digit.
There is none without a mantissa digit, or when no digit follows an exponent
mark. -/
def readDecimal (cs : List Char) : Option (ℚ × List Char) :=
  let sign := readSign cs
  let ip := sign.2.takeWhile isDigit
  let frac := readFraction (sign.2.dropWhile isDigit)
  if ip.isEmpty && frac.1.isEmpty then none
  else
    let m : ℚ := (digitsValue (ip ++ frac.1) : ℚ) / 10 ^ frac.1.length
    let mant : ℚ := if sign.1 then -m else m
    match frac.2 with
    | [] => some (mant, [])
    | c :: rest =>
      if c = 'e' ∨ c = 'E' then
        let esign := readSign rest
        let ed := esign.2.takeWhile isDigit
        if ed.isEmpty then none
        else
          let e : Int := if esign.1 then -(digitsValue ed : Int) else (digitsValue ed : Int)
          some (mant * 10 ^ e, esign.2.dropWhile isDigit)
      else some (mant, c :: rest)

/-- What implementations of the standard library do differently for `float`:
the value stored when the number is too large (`true` for a negative one),
and whether the conversion of a non-zero number below the least normal
magnitude is reported as a failure. -/
structure NumLib where
  overflowValue : Bool → F32
  tinyFails : ℚ → Bool

/-- Largest finite binary32 value. -/
def floatMax : ℚ := (2 ^ 24 - 1) * 2 ^ 104

/-- A library that stores the largest finite value on overflow and accepts
tiny numbers. -/
def limitLib : NumLib :=
  ⟨fun neg => F32.fin (if neg then -floatMax else floatMax), fun _ => false⟩

/-- A library that stores an infinity on overflow and rejects tiny numbers. -/
def strictLib : NumLib :=
  ⟨fun neg => F32.inf neg, fun _ => true⟩

/-- Conversion for `float`: the decimal number is rounded to binary32.  Without
a number the value 0 is stored and the extraction fails; when the rounded
value is infinite the extraction fails and the library decides what is
stored; a non-zero number of magnitude below `2^-126` fails or not as the
library decides. -/
def numGetFloat (lib : NumLib) (cs : List Char) : NumGet F32 :=
  match readDecimal cs with
  | none => NumGet.fail (F32.fin 0)
  | some (d, rest) =>
    match F32.round d with
    | F32.fin r =>
      if d ≠ 0 ∧ (if d < 0 then -d else d) < 1 / 2 ^ 126 ∧ lib.tinyFails d = true then
        NumGet.fail (F32.fin r)
      else NumGet.ok (F32.fin r) rest
    | F32.inf neg => NumGet.fail (lib.overflowValue neg)
    | F32.nan => NumGet.fail F32.nan

/-- Formatted extraction `iss >> x` of a number into a variable holding
`old`: a failed stream leaves the variable alone; so does a stream that ends
before a character of the number is found, and it fails; otherwise the
conversion decides the stored value and the state. -/
def extract {β : Type} (numGet : List Char → NumGet β) (s : IStream) (old : β) : β × IStream :=
  if s.failed then (old, s)
  else
    match s.buf.dropWhile isSpace with
    | [] => (old, ⟨[], true⟩)
    | c :: cs =>
      match numGet (c :: cs) with
      | NumGet.ok v rest => (v, ⟨rest, false⟩)
      | NumGet.fail v => (v, ⟨[], true⟩)

/-- The constant `2.2f` of lines 60-62: the binary32 value nearest to 2.2. -/
def scaleFactor : F32 := F32.round (11 / 5)

/-- Value of a 32-bit `int` after an operation whose mathematical result is
`v`.  (The overflow of `face.v1--` at `INT_MIN` is undefined behaviour in the
source; compiled code wraps around, as here.) -/
def wrapInt32 (v : Int) : Int :=
  (v + 2147483648) % 4294967296 - 2147483648

/-- Body of the loop of lines 51-73 for one line.  `junk` is the indeterminate
content of the uninitialised locals `vertex` and `face`. -/
def loadLine (lib : NumLib) (junk : Vertex F32 × Face) (acc : List (Vertex F32) × List Face)
    (line : List Char) : List (Vertex F32) × List Face :=
  let t := readWord ⟨line, false⟩
  if t.1 = ['v'] then
    let x := extract (numGetFloat lib) t.2 junk.1.x
    let y := extract (numGetFloat lib) x.2 junk.1.y
    let z := extract (numGetFloat lib) y.2 junk.1.z
    (acc.1 ++ [⟨x.1 * scaleFactor, y.1 * scaleFactor, z.1 * scaleFactor⟩], acc.2)
  else if t.1 = ['f'] then
    let a := extract numGetInt t.2 junk.2.v1
    let b := extract numGetInt a.2 junk.2.v2
    let c := extract numGetInt b.2 junk.2.v3
    (acc.1, acc.2 ++ [⟨wrapInt32 (a.1 - 1), wrapInt32 (b.1 - 1), wrapInt32 (c.1 - 1)⟩])
  else acc

/-- The loop of lines 50-74 over the lines of the file, `n` being the number
of the first line and `junk k` the indeterminate locals of the iteration for
line `k`. -/
def loadLines (lib : NumLib) (junk : Nat → Vertex F32 × Face) :
    Nat → List (List Char) → List (Vertex F32) × List Face → List (Vertex F32) × List Face
  | _, [], acc => acc
  | n, line :: rest, acc => loadLines lib junk (n + 1) rest (loadLine lib (junk n) acc line)

/-- Function `loadOBJ`; `file` is the content of the file named `filename`, or
`none` when it cannot be opened.  The result is the returned flag with the
final contents of the two vectors passed by reference. -/
def loadOBJ (lib : NumLib) (junk : Nat → Vertex F32 × Face) (file : Option String)
    (vertices : List (Vertex F32)) (faces : List Face) :
    Bool × List (Vertex F32) × List Face :=
  match file with
  | none => (false, vertices, faces)
  | some text =>
    let r := loadLines lib junk 0 (getlines text.data) (vertices, faces)
    (true, r.1, r.2)

/-! ### Specification side of the loader -/

/-- First token of a line: the record kind. -/
def recordKind (line : List Char) : List Char :=
  (line.dropWhile isSpace).takeWhile fun c => !isSpace c

/-- What follows the first token of a line. -/
def recordFields (line : List Char) : List Char :=
  (line.dropWhile isSpace).dropWhile fun c => !isSpace c

/-- The unread rest after a number ends the field: it is empty or starts with
white space. -/
def fieldEnds : List Char → Bool
  | [] => true
  | c :: _ => isSpace c

/-- One parseable numeric field: white space, then a number that is followed
by white space or by the end of the line. -/
def numericField {β : Type} (numGet : List Char → NumGet β) (cs : List Char) :
    Option (β × List Char) :=
  match numGet (cs.dropWhile isSpace) with
  | NumGet.ok v rest => if fieldEnds rest then some (v, rest) else none
  | NumGet.fail _ => none

/-- Three parseable numeric fields in a row. -/
def threeFields {β : Type} (numGet : List Char → NumGet β) (cs : List Char) :
    Option (β × β × β) :=
  match numericField numGet cs with
  | none => none
  | some (a, r1) =>
    match numericField numGet r1 with
    | none => none
    | some (b, r2) =>
      match numericField numGet r2 with
      | none => none
      | some (c, _) => some (a, b, c)

/-- The vertex a `v` line denotes: its three numbers (zero or in the normal
range of `float`), each multiplied by the constant `2.2f`. -/
def vertexOfLine (line : List Char) : Option (Vertex F32) :=
  if recordKind line = ['v'] then
    (threeFields (numGetFloat strictLib) (recordFields line)).map fun p =>
      ⟨p.1 * scaleFactor, p.2.1 * scaleFactor, p.2.2 * scaleFactor⟩
  else none

/-- The face an `f` line denotes: its three 1-based integers, each minus 1. -/
def faceOfLine (line : List Char) : Option Face :=
  if recordKind line = ['f'] then
    (threeFields numGetInt (recordFields line)).map fun p => ⟨p.1 - 1, p.2.1 - 1, p.2.2 - 1⟩
  else none

/-- Three integer fields that all lie in `[1, n]`. -/
def FieldsInRange (n : Nat) : Option (Int × Int × Int) → Prop
  | some (a, b, c) => (1 ≤ a ∧ a ≤ n) ∧ (1 ≤ b ∧ b ≤ n) ∧ (1 ≤ c ∧ c ≤ n)
  | none => False

instance (n : Nat) (o : Option (Int × Int × Int)) : Decidable (FieldsInRange n o) := by
  cases o with
  | none => unfold FieldsInRange; infer_instance
  | some p => unfold FieldsInRange; infer_instance

/-- A line of valid input for a mesh of `n` vertices: a `v` line has three
numbers (zero or in the normal range of `float`), an `f` line has three
integers in `[1, n]`. -/
def ValidLine (n : Nat) (line : List Char) : Prop :=
  (recordKind line = ['v'] →
    (threeFields (numGetFloat strictLib) (recordFields line)).isSome = true) ∧
  (recordKind line = ['f'] → FieldsInRange n (threeFields numGetInt (recordFields line)))

instance (n : Nat) (line : List Char) : Decidable (ValidLine n line) := by
  unfold ValidLine; infer_instance

/-- Number of `v` lines. -/
def countVertexLines (lines : List (List Char)) : Nat :=
  (lines.filter fun l => recordKind l = ['v']).length

/-- Number of `f` lines. -/
def countFaceLines (lines : List (List Char)) : Nat :=
  (lines.filter fun l => recordKind l = ['f']).length

/-- Indeterminate locals used in the examples. -/
def junk9 : Nat → Vertex F32 × Face :=
  fun _ => (⟨F32.fin 9, F32.fin 9, F32.fin 9⟩, ⟨9, 9, 9⟩)

/-! # Theorems -/

/-! ## Laplacian smoothing -/

theorem sumPositions_append {α : Type} [AddCommMonoid α] (ps qs : List (Vertex α)) :
    sumPositions (ps ++ qs)
      = ⟨(sumPositions ps).x + (sumPositions qs).x, (sumPositions ps).y + (sumPositions qs).y,
         (sumPositions ps).z + (sumPositions qs).z⟩ := by
  induction ps with
  | nil => simp [sumPositions]
  | cons p ps ih => simp [sumPositions, ih, add_assoc]

theorem accAdd_nil {α : Type} [AddCommMonoid α] (vs : List (Vertex α)) (acc : Vertex α × Nat) :
    accAdd vs acc [] = acc := by
  simp [accAdd, sumPositions]

theorem accAdd_append {α : Type} [AddCommMonoid α] (vs : List (Vertex α)) (acc : Vertex α × Nat)
    (js ks : List Int) : accAdd vs (accAdd vs acc js) ks = accAdd vs acc (js ++ ks) := by
  simp [accAdd, sumPositions_append, add_assoc]

theorem vertexAt_isSome {α : Type} (vs : List (Vertex α)) (idx : Int)
    (h : 0 ≤ idx ∧ idx < vs.length) : ∃ p, vertexAt vs idx = some p := by
  obtain ⟨h0, h1⟩ := h
  have hlt : idx.toNat < vs.length := by omega
  exact ⟨vs[idx.toNat], by simp [vertexAt, h0, List.getElem?_eq_getElem hlt]⟩

theorem addNeighbour_eq {α : Type} [AddCommMonoid α] (vs : List (Vertex α)) (i : Nat) (idx : Int)
    (acc : Vertex α × Nat) (h : 0 ≤ idx ∧ idx < vs.length) :
    addNeighbour vs i idx acc = some (accAdd vs acc ([idx].filter fun j => j ≠ (i : Int))) := by
  obtain ⟨p, hp⟩ := vertexAt_isSome vs idx h
  by_cases hi : idx = (i : Int)
  · simp [addNeighbour, hi, accAdd_nil]
  · simp [addNeighbour, hi, hp, accAdd, sumPositions]

theorem scanFace_eq {α : Type} [AddCommMonoid α] (vs : List (Vertex α)) (i : Nat)
    (acc : Vertex α × Nat) (f : Face)
    (h : (0 ≤ f.v1 ∧ f.v1 < vs.length) ∧ (0 ≤ f.v2 ∧ f.v2 < vs.length) ∧
      (0 ≤ f.v3 ∧ f.v3 < vs.length)) :
    scanFace vs i acc f
      = some (accAdd vs acc (if incident f i then otherVertices f i else [])) := by
  by_cases hinc : incident f i
  · have hinc2 := hinc
    unfold incident at hinc2
    rw [scanFace, if_pos hinc2, addNeighbour_eq vs i f.v1 acc h.1, Option.some_bind,
      addNeighbour_eq vs i f.v2 _ h.2.1, Option.some_bind, addNeighbour_eq vs i f.v3 _ h.2.2,
      accAdd_append, accAdd_append, if_pos hinc]
    have e : (([f.v1].filter fun j => j ≠ (i : Int)) ++ (([f.v2].filter fun j => j ≠ (i : Int))
        ++ ([f.v3].filter fun j => j ≠ (i : Int)))) = otherVertices f i := by
      rw [otherVertices, ← List.filter_append, ← List.filter_append]; rfl
    rw [e]
  · have hinc2 := hinc
    unfold incident at hinc2
    rw [scanFace, if_neg hinc2, if_neg hinc, accAdd_nil]

theorem neighbourEntries_cons (f : Face) (fs : List Face) (i : Nat) :
    neighbourEntries (f :: fs) i
      = (if incident f i then otherVertices f i else []) ++ neighbourEntries fs i := by
  by_cases h : incident f i <;> simp [neighbourEntries, List.filter_cons, h]

theorem foldlM_scanFace {α : Type} [AddCommMonoid α] (vs : List (Vertex α)) (i : Nat)
    (faces : List Face) (h : FacesInRange vs.length faces) (acc : Vertex α × Nat) :
    faces.foldlM (scanFace vs i) acc = some (accAdd vs acc (neighbourEntries faces i)) := by
  induction faces generalizing acc with
  | nil => simp [neighbourEntries, accAdd_nil]
  | cons f fs ih =>
    have hf := h f (List.mem_cons_self f fs)
    have hfs : FacesInRange vs.length fs := fun g hg => h g (List.mem_cons_of_mem f hg)
    rw [List.foldlM_cons, scanFace_eq vs i acc f hf]
    simp only [Option.bind_eq_bind, Option.some_bind]
    rw [ih hfs, accAdd_append, neighbourEntries_cons]

theorem scanFaces_eq {α : Type} [AddCommMonoid α] (vs : List (Vertex α)) (i : Nat)
    (faces : List Face) (h : FacesInRange vs.length faces) :
    scanFaces vs i faces = some (neighbourSum vs faces i, neighbourCount faces i) := by
  rw [scanFaces, foldlM_scanFace vs i faces h]
  simp [accAdd, neighbourSum, neighbourCount]

theorem set_of_getElem? {β : Type} (l : List β) (i : Nat) (p : β) (h : l[i]? = some p) :
    l.set i p = l := by
  induction l generalizing i with
  | nil => simp
  | cons a l ih =>
    cases i with
    | zero => simp at h; simp [h]
    | succ i => simp at h; simp [ih i h]

theorem smoothVertex_eq {α : Type} [Field α] (vs : List (Vertex α)) (faces : List Face) (t : α)
    (h : FacesInRange vs.length faces) (nv : List (Vertex α)) (i : Nat) (p : Vertex α)
    (hp : vs[i]? = some p) (hnv : nv[i]? = some p) :
    smoothVertex vs faces t nv i = some (nv.set i (smoothedPosition vs faces t i p)) := by
  rw [smoothVertex, scanFaces_eq vs i faces h]
  by_cases hc : 0 < neighbourCount faces i
  · simp [hc, hp, hnv, smoothedPosition, lerp, neighbourAvg]
  · simp [hc, smoothedPosition, set_of_getElem? nv i p hnv]

theorem foldlM_smoothVertex {α : Type} [Field α] (vs : List (Vertex α)) (faces : List Face) (t : α)
    (h : FacesInRange vs.length faces) (n : Nat) (hn : n ≤ vs.length) :
    ∃ out, (List.range n).foldlM (smoothVertex vs faces t) vs = some out ∧
      out.length = vs.length ∧
      ∀ i p, vs[i]? = some p →
        out[i]? = some (if i < n then smoothedPosition vs faces t i p else p) := by
  induction n with
  | zero => exact ⟨vs, by simp, rfl, fun i p hp => by simp [hp]⟩
  | succ n ih =>
    obtain ⟨out, hout, hlen, hget⟩ := ih (Nat.le_of_succ_le hn)
    have hnlt : n < vs.length := hn
    have hp : vs[n]? = some vs[n] := List.getElem?_eq_getElem hnlt
    have hnv : out[n]? = some vs[n] := by simpa using hget n vs[n] hp
    refine ⟨out.set n (smoothedPosition vs faces t n vs[n]), ?_, by simp [hlen], ?_⟩
    · rw [List.range_succ, List.foldlM_append, hout]
      simp [smoothVertex_eq vs faces t h out n vs[n] hp hnv]
    · intro i p hip
      rw [List.getElem?_set]
      by_cases hin : n = i
      · subst hin
        simp [hlen, hnlt]
        rw [hp] at hip
        injection hip with hip
        rw [hip]
      · have h1 := hget i p hip
        simp only [hin, if_false, h1]
        by_cases hlt : i < n
        · simp [hlt, Nat.lt_succ_of_lt hlt]
        · have : ¬ i < n + 1 := by omega
          simp [hlt, this]

theorem laplacianSmoothing_spec {α : Type} [Field α] (vs : List (Vertex α)) (faces : List Face)
    (t : α) (h : FacesInRange vs.length faces) :
    ∃ out, laplacianSmoothing vs faces t = some out ∧ out.length = vs.length ∧
      ∀ i p, vs[i]? = some p → out[i]? = some (smoothedPosition vs faces t i p) := by
  obtain ⟨out, hout, hlen, hget⟩ := foldlM_smoothVertex vs faces t h vs.length (Nat.le_refl _)
  refine ⟨out, hout, hlen, fun i p hp => ?_⟩
  have hi : i < vs.length := (List.getElem?_eq_some_iff.mp hp).1
  simpa [hi] using hget i p hp

theorem lerp_zero {α : Type} [Field α] (p a : Vertex α) : lerp p a 0 = p := by
  simp [lerp]

theorem lerp_one {α : Type} [Field α] (p a : Vertex α) : lerp p a 1 = a := by
  simp [lerp]

theorem neighbourCount_pos_iff (faces : List Face) (i : Nat) :
    0 < neighbourCount faces i ↔
      ∃ f ∈ faces, incident f i ∧ ¬ (f.v1 = (i : Int) ∧ f.v2 = (i : Int) ∧ f.v3 = (i : Int)) := by
  induction faces with
  | nil => simp [neighbourCount, neighbourEntries]
  | cons f fs ih =>
    have hlen : neighbourCount (f :: fs) i
        = (if incident f i then otherVertices f i else []).length + neighbourCount fs i := by
      simp [neighbourCount, neighbourEntries_cons]
    have hother : 0 < (otherVertices f i).length ↔
        ¬ (f.v1 = (i : Int) ∧ f.v2 = (i : Int) ∧ f.v3 = (i : Int)) := by
      by_cases h1 : f.v1 = (i : Int) <;> by_cases h2 : f.v2 = (i : Int) <;>
        by_cases h3 : f.v3 = (i : Int) <;> simp [otherVertices, List.filter_cons, h1, h2, h3]
    rw [hlen, List.exists_mem_cons_iff, ← ih]
    by_cases hinc : incident f i
    · simp only [hinc, if_true, true_and, ← hother]; omega
    · simp [hinc]

/-- Result of one pass with factor 1 on the tetrahedron: every vertex sits at
the centroid of the other three. -/
theorem tetrahedron_factor_one :
    laplacianSmoothing tetraVertices tetraFaces 1
      = some [⟨1, 1, 1⟩, ⟨0, 1, 1⟩, ⟨1, 0, 1⟩, ⟨1, 1, 0⟩] := by
  simp [laplacianSmoothing, smoothVertex, scanFaces, scanFace, addNeighbour, vertexAt,
    tetraVertices, tetraFaces, List.range, List.range.loop]
  norm_num

/-! ### Claims C1, C2, C10 -/

/-- C1: for every vertex list, every face list with all indices in
`[0, vertices.length)` and every factor, one pass of `laplacianSmoothing`
returns a list of the same length; for every index `i` the inner loop ends
with the sum and the count of the pre-pass positions of the other vertices of
the faces containing `i` (one entry per shared face), and the new position is
`old + (avg - old) * factor` when that count is positive and `old` otherwise,
`avg` being computed from the pre-pass list only (simultaneous update). -/
theorem laplacianSmoothing_simultaneous_update {α : Type} [Field α] (vertices : List (Vertex α))
    (faces : List Face) (factor : α) (h : FacesInRange vertices.length faces) :
    ∃ out, laplacianSmoothing vertices faces factor = some out ∧
      out.length = vertices.length ∧
      ∀ i old, vertices[i]? = some old →
        scanFaces vertices i faces
          = some (neighbourSum vertices faces i, neighbourCount faces i) ∧
        out[i]? = some (if 0 < neighbourCount faces i
          then lerp old (neighbourAvg vertices faces i) factor else old) := by
  obtain ⟨out, hout, hlen, hget⟩ := laplacianSmoothing_spec vertices faces factor h
  exact ⟨out, hout, hlen, fun i old hold =>
    ⟨scanFaces_eq vertices i faces h, by simpa [smoothedPosition] using hget i old hold⟩⟩

/-- Witness of C1 on the tetrahedron with factor 1/2. -/
theorem laplacianSmoothing_simultaneous_update_witness :
    FacesInRange tetraVertices.length tetraFaces ∧
    ∃ out, laplacianSmoothing tetraVertices tetraFaces (1 / 2) = some out ∧
      out.length = tetraVertices.length ∧
      ∀ i old, tetraVertices[i]? = some old →
        scanFaces tetraVertices i tetraFaces
          = some (neighbourSum tetraVertices tetraFaces i, neighbourCount tetraFaces i) ∧
        out[i]? = some (if 0 < neighbourCount tetraFaces i
          then lerp old (neighbourAvg tetraVertices tetraFaces i) (1 / 2) else old) :=
  ⟨by decide, laplacianSmoothing_simultaneous_update tetraVertices tetraFaces (1 / 2) (by decide)⟩

/-- C2, as stated, fails, in two ways.  With the single vertex `(1,1,1)` and
the single face `(0,0,0)` the indices are in range and vertex 0 is incident
to a face, yet no entry is summed, the pass with factor 1 leaves the vertex at
`(1,1,1)`, and that is not the quotient of the (empty) sum by the (zero)
number of entries.  And in `float` arithmetic, with the vertices
`(2^25,0,0)`, `(1,0,0)`, `(1,0,0)` and the face `(0,1,2)`, the neighbour
average of vertex 0 is `(1,0,0)`, but the difference `1 - 2^25` rounds to
`-2^25` and the pass with factor 1 leaves vertex 0 at `(0,0,0)`. -/
theorem laplacianSmoothing_factor_one_fails :
    (FacesInRange 1 [⟨0, 0, 0⟩] ∧ incident ⟨0, 0, 0⟩ 0 ∧
      neighbourEntries [⟨0, 0, 0⟩] 0 = [] ∧
      laplacianSmoothing ([⟨1, 1, 1⟩] : List (Vertex ℚ)) [⟨0, 0, 0⟩] 1 = some [⟨1, 1, 1⟩] ∧
      (⟨1, 1, 1⟩ : Vertex ℚ) ≠ neighbourAvg [⟨1, 1, 1⟩] [⟨0, 0, 0⟩] 0) ∧
    (FacesInRange 3 [⟨0, 1, 2⟩] ∧ incident ⟨0, 1, 2⟩ 0 ∧
      neighbourAvg ([⟨33554432, 0, 0⟩, ⟨1, 0, 0⟩, ⟨1, 0, 0⟩] : List (Vertex ℚ)) [⟨0, 1, 2⟩] 0
        = ⟨1, 0, 0⟩ ∧
      laplacianSmoothing ([⟨F32.fin 33554432, F32.fin 0, F32.fin 0⟩,
          ⟨F32.fin 1, F32.fin 0, F32.fin 0⟩, ⟨F32.fin 1, F32.fin 0, F32.fin 0⟩] :
          List (Vertex F32)) [⟨0, 1, 2⟩] (F32.fin 1)
        = some [⟨F32.fin 0, F32.fin 0, F32.fin 0⟩, ⟨F32.fin 16777216, F32.fin 0, F32.fin 0⟩,
            ⟨F32.fin 16777216, F32.fin 0, F32.fin 0⟩]) := by
  refine ⟨⟨by decide, by decide, by decide, ?_, ?_⟩, by decide, by decide, by decide!, by decide!⟩
  · simp [laplacianSmoothing, smoothVertex, scanFaces, scanFace, addNeighbour, vertexAt,
      List.range, List.range.loop]
  · simp [neighbourAvg, neighbourSum, neighbourCount, neighbourEntries, otherVertices, incident,
      sumPositions]

/-- C2, amended: in exact arithmetic (any field), with in-range indices, one
pass with factor 1 succeeds, keeps the length, and moves every vertex `i` that
has an incident face with at least one entry different from `i` exactly to its
multiplicity-weighted neighbour average (sum of the pre-pass positions of the
summed entries divided by their number). -/
theorem laplacianSmoothing_factor_one {α : Type} [Field α] (vertices : List (Vertex α))
    (faces : List Face) (h : FacesInRange vertices.length faces) :
    ∃ out, laplacianSmoothing vertices faces 1 = some out ∧
      out.length = vertices.length ∧
      ∀ i old, vertices[i]? = some old →
        (∃ f ∈ faces, incident f i ∧
          ¬ (f.v1 = (i : Int) ∧ f.v2 = (i : Int) ∧ f.v3 = (i : Int))) →
        out[i]? = some (neighbourAvg vertices faces i) := by
  obtain ⟨out, hout, hlen, hget⟩ := laplacianSmoothing_spec vertices faces 1 h
  refine ⟨out, hout, hlen, fun i old hold hinc => ?_⟩
  have hpos : 0 < neighbourCount faces i := (neighbourCount_pos_iff faces i).mpr hinc
  rw [hget i old hold, smoothedPosition, if_pos hpos, lerp_one]

/-- Witness of the amended C2 on the tetrahedron. -/
theorem laplacianSmoothing_factor_one_witness :
    FacesInRange tetraVertices.length tetraFaces ∧
    ∃ out, laplacianSmoothing tetraVertices tetraFaces 1 = some out ∧
      out.length = tetraVertices.length ∧
      ∀ i old, tetraVertices[i]? = some old →
        (∃ f ∈ tetraFaces, incident f i ∧
          ¬ (f.v1 = (i : Int) ∧ f.v2 = (i : Int) ∧ f.v3 = (i : Int))) →
        out[i]? = some (neighbourAvg tetraVertices tetraFaces i) :=
  ⟨by decide, laplacianSmoothing_factor_one tetraVertices tetraFaces (by decide)⟩

/-- C10: for every vertex list and every face list with in-range indices,
`laplacianSmoothing` with factor 0 returns the vertex list unchanged. -/
theorem laplacianSmoothing_factor_zero {α : Type} [Field α] (vertices : List (Vertex α))
    (faces : List Face) (h : FacesInRange vertices.length faces) :
    laplacianSmoothing vertices faces 0 = some vertices := by
  obtain ⟨out, hout, hlen, hget⟩ := laplacianSmoothing_spec vertices faces 0 h
  rw [hout]
  congr 1
  apply List.ext_getElem?
  intro i
  by_cases hi : i < vertices.length
  · have hp : vertices[i]? = some vertices[i] := List.getElem?_eq_getElem hi
    rw [hget i _ hp, hp]
    simp [smoothedPosition, lerp_zero]
  · have h1 : vertices.length ≤ i := Nat.le_of_not_lt hi
    rw [List.getElem?_eq_none h1, List.getElem?_eq_none (hlen ▸ h1)]

/-- Witness of C10 on the tetrahedron. -/
theorem laplacianSmoothing_factor_zero_witness :
    FacesInRange tetraVertices.length tetraFaces ∧
    laplacianSmoothing tetraVertices tetraFaces 0 = some tetraVertices :=
  ⟨by decide, laplacianSmoothing_factor_zero tetraVertices tetraFaces (by decide)⟩

/-! ## Face normal -/

theorem normSq_eq_zero_iff (n : Normal ℝ) : normSq n = 0 ↔ n = ⟨0, 0, 0⟩ := by
  constructor
  · intro h
    unfold normSq at h
    have hx : n.x = 0 := by nlinarith [mul_self_nonneg n.x, mul_self_nonneg n.y, mul_self_nonneg n.z]
    have hy : n.y = 0 := by nlinarith [mul_self_nonneg n.x, mul_self_nonneg n.y, mul_self_nonneg n.z]
    have hz : n.z = 0 := by nlinarith [mul_self_nonneg n.x, mul_self_nonneg n.y, mul_self_nonneg n.z]
    ext <;> assumption
  · intro h; subst h; simp [normSq]

theorem normSq_nonneg (n : Normal ℝ) : 0 ≤ normSq n := by
  unfold normSq
  nlinarith [mul_self_nonneg n.x, mul_self_nonneg n.y, mul_self_nonneg n.z]

theorem normalLength_eq_zero_iff (n : Normal ℝ) :
    normalLength Real.sqrt n = 0 ↔ n = ⟨0, 0, 0⟩ := by
  rw [← normSq_eq_zero_iff]
  exact Real.sqrt_eq_zero (normSq_nonneg n)

theorem normalizeGuarded_zero : normalizeGuarded Real.sqrt (⟨0, 0, 0⟩ : Normal ℝ) = ⟨0, 0, 0⟩ := by
  have h : normalLength Real.sqrt (⟨0, 0, 0⟩ : Normal ℝ) = 0 :=
    (normalLength_eq_zero_iff _).mpr rfl
  simp [normalizeGuarded, h]

theorem normalizeGuarded_of_ne (n : Normal ℝ) (h : n ≠ ⟨0, 0, 0⟩) :
    normalizeGuarded Real.sqrt n = scaleDiv n (Real.sqrt (normSq n)) := by
  have hl : normalLength Real.sqrt n ≠ 0 := fun h0 => h ((normalLength_eq_zero_iff n).mp h0)
  simp only [normalizeGuarded, hl, ne_eq, not_false_eq_true, if_true]
  rfl

theorem normSq_scaleDiv_sqrt (n : Normal ℝ) (h : n ≠ ⟨0, 0, 0⟩) :
    normSq (scaleDiv n (Real.sqrt (normSq n))) = 1 := by
  have hpos : 0 < normSq n :=
    lt_of_le_of_ne (normSq_nonneg n) (fun h0 => h ((normSq_eq_zero_iff n).mp h0.symm))
  have hs : Real.sqrt (normSq n) * Real.sqrt (normSq n) = normSq n :=
    Real.mul_self_sqrt (le_of_lt hpos)
  have hne : Real.sqrt (normSq n) ≠ 0 := (Real.sqrt_pos.mpr hpos).ne.symm
  have : normSq (scaleDiv n (Real.sqrt (normSq n)))
      = normSq n / (Real.sqrt (normSq n) * Real.sqrt (normSq n)) := by
    simp only [normSq, scaleDiv]
    field_simp
  rw [this, hs, div_self hpos.ne.symm]

theorem calculateFaceNormal_right_triangle :
    calculateFaceNormal Real.sqrt (⟨0, 0, 0⟩ : Vertex ℝ) ⟨1, 0, 0⟩ ⟨0, 1, 0⟩ = ⟨0, 0, 1⟩ := by
  simp [calculateFaceNormal, normalizeGuarded, normalLength, edgeCross]

theorem edgeCross_collinear (v1 v2 v3 : Vertex ℝ) (h : Collinear3 v1 v2 v3) :
    edgeCross v1 v2 v3 = ⟨0, 0, 0⟩ := by
  obtain ⟨p, d, t1, t2, t3, h1, h2, h3⟩ := h
  subst h1 h2 h3
  simp only [edgeCross]
  ext <;> simp only <;> ring

/-! ### Claims C7, C8 -/

/-- C7: for every triangle `(v1, v2, v3)` whose cross product
`c = (v2 - v1) x (v3 - v1)` is non-zero, `calculateFaceNormal` (over the reals,
with the exact square root) returns `c` divided by its Euclidean length; the
result has length 1, is orthogonal to both edges `v2 - v1` and `v3 - v1`, and
swapping the winding order negates it. -/
theorem calculateFaceNormal_unit_normal (v1 v2 v3 : Vertex ℝ) (h : edgeCross v1 v2 v3 ≠ ⟨0, 0, 0⟩) :
    calculateFaceNormal Real.sqrt v1 v2 v3
        = scaleDiv (edgeCross v1 v2 v3) (Real.sqrt (normSq (edgeCross v1 v2 v3))) ∧
      normSq (calculateFaceNormal Real.sqrt v1 v2 v3) = 1 ∧
      dotEdge (calculateFaceNormal Real.sqrt v1 v2 v3) v1 v2 = 0 ∧
      dotEdge (calculateFaceNormal Real.sqrt v1 v2 v3) v1 v3 = 0 ∧
      calculateFaceNormal Real.sqrt v1 v3 v2
        = ⟨-(calculateFaceNormal Real.sqrt v1 v2 v3).x, -(calculateFaceNormal Real.sqrt v1 v2 v3).y,
           -(calculateFaceNormal Real.sqrt v1 v2 v3).z⟩ := by
  have e := normalizeGuarded_of_ne _ h
  have h2 : edgeCross v1 v3 v2 ≠ ⟨0, 0, 0⟩ := by
    intro h0
    apply h
    have := congrArg Normal.x h0
    have := congrArg Normal.y h0
    have := congrArg Normal.z h0
    simp only [edgeCross] at *
    ext <;> simp only <;> linarith
  have hsq : normSq (edgeCross v1 v3 v2) = normSq (edgeCross v1 v2 v3) := by
    simp only [normSq, edgeCross]; ring
  have e2 := normalizeGuarded_of_ne _ h2
  refine ⟨e, ?_, ?_, ?_, ?_⟩
  · rw [calculateFaceNormal, e]; exact normSq_scaleDiv_sqrt _ h
  · rw [calculateFaceNormal, e]; simp only [dotEdge, scaleDiv, edgeCross]; ring
  · rw [calculateFaceNormal, e]; simp only [dotEdge, scaleDiv, edgeCross]; ring
  · rw [calculateFaceNormal, calculateFaceNormal, e, e2, hsq]
    simp only [scaleDiv, edgeCross]
    ext <;> simp only <;> ring

/-- Witness of C7: the right triangle `(0,0,0), (1,0,0), (0,1,0)`, whose
normal is `(0,0,1)`. -/
theorem calculateFaceNormal_unit_normal_witness :
    edgeCross (⟨0, 0, 0⟩ : Vertex ℝ) ⟨1, 0, 0⟩ ⟨0, 1, 0⟩ ≠ ⟨0, 0, 0⟩ ∧
    calculateFaceNormal Real.sqrt (⟨0, 0, 0⟩ : Vertex ℝ) ⟨1, 0, 0⟩ ⟨0, 1, 0⟩ = ⟨0, 0, 1⟩ ∧
    normSq (calculateFaceNormal Real.sqrt (⟨0, 0, 0⟩ : Vertex ℝ) ⟨1, 0, 0⟩ ⟨0, 1, 0⟩) = 1 :=
  ⟨by simp [edgeCross], calculateFaceNormal_right_triangle,
    (calculateFaceNormal_unit_normal ⟨0, 0, 0⟩ ⟨1, 0, 0⟩ ⟨0, 1, 0⟩ (by simp [edgeCross])).2.1⟩

/-- C8, as stated, fails: the points `(-1,-3,0)`, `(2^24, 3*2^24, 0)` and
`(1,3,0)` lie on the line `y = 3x, z = 0` and are binary32 values, yet in
`float` arithmetic the first edge rounds to `(2^24, 3*2^24+4, 0)`, the cross
product is `(0,0,-8)`, the length is 8, the division takes place and
`calculateFaceNormal` returns `(0,0,-1)`, not the zero vector. -/
theorem calculateFaceNormal_collinear_float :
    Collinear3 (⟨-1, -3, 0⟩ : Vertex ℚ) ⟨16777216, 50331648, 0⟩ ⟨1, 3, 0⟩ ∧
    edgeCross (⟨F32.fin (-1), F32.fin (-3), F32.fin 0⟩ : Vertex F32)
        ⟨F32.fin 16777216, F32.fin 50331648, F32.fin 0⟩ ⟨F32.fin 1, F32.fin 3, F32.fin 0⟩
      = ⟨F32.fin 0, F32.fin 0, F32.fin (-8)⟩ ∧
    normalLength F32.sqrt (⟨F32.fin 0, F32.fin 0, F32.fin (-8)⟩ : Normal F32) = F32.fin 8 ∧
    calculateFaceNormal F32.sqrt (⟨F32.fin (-1), F32.fin (-3), F32.fin 0⟩ : Vertex F32)
        ⟨F32.fin 16777216, F32.fin 50331648, F32.fin 0⟩ ⟨F32.fin 1, F32.fin 3, F32.fin 0⟩
      = ⟨F32.fin 0, F32.fin 0, F32.fin (-1)⟩ := by
  refine ⟨⟨⟨0, 0, 0⟩, ⟨1, 3, 0⟩, -1, 16777216, 1, ?_, ?_, ?_⟩, by decide!, by decide!, by decide!⟩
  · norm_num
  · norm_num
  · norm_num

/-- C8, amended: in exact real arithmetic, for every triangle whose three
vertices are collinear (coincident vertices included), the length computed on
line 98 is zero, so the guard `length != 0` of the only division is false,
and `calculateFaceNormal` returns the zero vector. -/
theorem calculateFaceNormal_collinear (v1 v2 v3 : Vertex ℝ) (h : Collinear3 v1 v2 v3) :
    normalLength Real.sqrt (edgeCross v1 v2 v3) = 0 ∧
      calculateFaceNormal Real.sqrt v1 v2 v3 = ⟨0, 0, 0⟩ := by
  rw [calculateFaceNormal, edgeCross_collinear v1 v2 v3 h]
  exact ⟨(normalLength_eq_zero_iff _).mpr rfl, normalizeGuarded_zero⟩

/-- Witness of the amended C8: the collinear triangle `(0,0,0), (1,0,0), (2,0,0)`. -/
theorem calculateFaceNormal_collinear_witness :
    Collinear3 (⟨0, 0, 0⟩ : Vertex ℝ) ⟨1, 0, 0⟩ ⟨2, 0, 0⟩ ∧
    normalLength Real.sqrt (edgeCross (⟨0, 0, 0⟩ : Vertex ℝ) ⟨1, 0, 0⟩ ⟨2, 0, 0⟩) = 0 ∧
    calculateFaceNormal Real.sqrt (⟨0, 0, 0⟩ : Vertex ℝ) ⟨1, 0, 0⟩ ⟨2, 0, 0⟩ = ⟨0, 0, 0⟩ :=
  have hc : Collinear3 (⟨0, 0, 0⟩ : Vertex ℝ) ⟨1, 0, 0⟩ ⟨2, 0, 0⟩ :=
    ⟨⟨0, 0, 0⟩, ⟨1, 0, 0⟩, 0, 1, 2, by simp, by simp, by simp⟩
  ⟨hc, calculateFaceNormal_collinear _ _ _ hc⟩

/-! ## Vertex normals -/

theorem addNormalAt_eq {α : Type} [Field α] (N : Normal α) (idx : Int) (n : Nat)
    (acc : List (Normal α) × List Nat) (h1 : acc.1.length = n) (h2 : acc.2.length = n)
    (hidx : 0 ≤ idx ∧ idx < n) :
    ∃ out, addNormalAt N idx acc = some out ∧ out.1.length = n ∧ out.2.length = n ∧
      ∀ (i : Nat) (m : Normal α) (c : Nat), acc.1[i]? = some m → acc.2[i]? = some c →
        out.1[i]? = some ⟨m.x + (if idx = (i : Int) then 1 else 0) * N.x,
          m.y + (if idx = (i : Int) then 1 else 0) * N.y,
          m.z + (if idx = (i : Int) then 1 else 0) * N.z⟩ ∧
        out.2[i]? = some (c + if idx = (i : Int) then 1 else 0) := by
  obtain ⟨h0, hlt⟩ := hidx
  have hk1 : idx.toNat < acc.1.length := by omega
  have hk2 : idx.toNat < acc.2.length := by omega
  refine ⟨_, by simp [addNormalAt, h0, List.getElem?_eq_getElem hk1, List.getElem?_eq_getElem hk2]; rfl,
    by simp [h1], by simp [h2], ?_⟩
  intro i m c hm hc
  by_cases hi : idx = (i : Int)
  · have hk : idx.toNat = i := by omega
    subst hk
    rw [List.getElem?_eq_getElem hk1] at hm
    rw [List.getElem?_eq_getElem hk2] at hc
    injection hm with hm
    injection hc with hc
    simp only [if_pos hi]
    simp [hk1, hk2, hm, hc]
  · have hk : idx.toNat ≠ i := by omega
    simp [hi, List.getElem?_set, hk, hm, hc]

theorem accumulateFace_eq {α : Type} [Field α] (f : Face) (N : Normal α) (n : Nat)
    (acc : List (Normal α) × List Nat) (h1 : acc.1.length = n) (h2 : acc.2.length = n)
    (hf : (0 ≤ f.v1 ∧ f.v1 < n) ∧ (0 ≤ f.v2 ∧ f.v2 < n) ∧ (0 ≤ f.v3 ∧ f.v3 < n)) :
    ∃ out, accumulateFace acc (f, N) = some out ∧ out.1.length = n ∧ out.2.length = n ∧
      ∀ (i : Nat) (m : Normal α) (c : Nat), acc.1[i]? = some m → acc.2[i]? = some c →
        out.1[i]? = some ⟨m.x + (occurrences f i : α) * N.x,
          m.y + (occurrences f i : α) * N.y, m.z + (occurrences f i : α) * N.z⟩ ∧
        out.2[i]? = some (c + occurrences f i) := by
  obtain ⟨a1, e1, l11, l12, g1⟩ := addNormalAt_eq N f.v1 n acc h1 h2 hf.1
  obtain ⟨a2, e2, l21, l22, g2⟩ := addNormalAt_eq N f.v2 n a1 l11 l12 hf.2.1
  obtain ⟨a3, e3, l31, l32, g3⟩ := addNormalAt_eq N f.v3 n a2 l21 l22 hf.2.2
  refine ⟨a3, by simp [accumulateFace, e1, e2, e3], l31, l32, ?_⟩
  intro i m c hm hc
  obtain ⟨p1, q1⟩ := g1 i m c hm hc
  obtain ⟨p2, q2⟩ := g2 i _ _ p1 q1
  obtain ⟨p3, q3⟩ := g3 i _ _ p2 q2
  rw [p3, q3]
  refine ⟨?_, ?_⟩
  · congr 1
    ext <;> simp only [occurrences, Nat.cast_add, Nat.cast_ite, Nat.cast_one, Nat.cast_zero] <;> ring
  · simp only [occurrences]; congr 1; ring

theorem foldlM_accumulateFace {α : Type} [Field α] (n : Nat) (L : List (Face × Normal α))
    (hL : ∀ fn ∈ L, (0 ≤ fn.1.v1 ∧ fn.1.v1 < n) ∧ (0 ≤ fn.1.v2 ∧ fn.1.v2 < n) ∧
      (0 ≤ fn.1.v3 ∧ fn.1.v3 < n))
    (acc : List (Normal α) × List Nat) (h1 : acc.1.length = n) (h2 : acc.2.length = n) :
    ∃ out, L.foldlM accumulateFace acc = some out ∧ out.1.length = n ∧ out.2.length = n ∧
      ∀ (i : Nat) (m : Normal α) (c : Nat), acc.1[i]? = some m → acc.2[i]? = some c →
        out.1[i]? = some ⟨m.x + (weightedNormalSum L i).x, m.y + (weightedNormalSum L i).y,
          m.z + (weightedNormalSum L i).z⟩ ∧
        out.2[i]? = some (c + occurrenceSum L i) := by
  induction L generalizing acc with
  | nil =>
    refine ⟨acc, by simp, h1, h2, ?_⟩
    intro i m c hm hc
    simp [weightedNormalSum, occurrenceSum, hm, hc]
  | cons fn L ih =>
    obtain ⟨f, N⟩ := fn
    obtain ⟨a1, e1, l1, l2, g1⟩ :=
      accumulateFace_eq f N n acc h1 h2 (hL (f, N) (List.mem_cons_self _ _))
    obtain ⟨out, e, lo1, lo2, g⟩ :=
      ih (fun fn hfn => hL fn (List.mem_cons_of_mem _ hfn)) a1 l1 l2
    refine ⟨out, by simp [List.foldlM_cons, e1, e], lo1, lo2, ?_⟩
    intro i m c hm hc
    obtain ⟨p1, q1⟩ := g1 i m c hm hc
    obtain ⟨p2, q2⟩ := g i _ _ p1 q1
    rw [p2, q2]
    simp only [weightedNormalSum, occurrenceSum, add_assoc, and_self]

theorem faceNormalOf_eq {α : Type} [Field α] [DecidableEq α] (sqrt : α → α)
    (vs : List (Vertex α)) (f : Face)
    (hf : (0 ≤ f.v1 ∧ f.v1 < vs.length) ∧ (0 ≤ f.v2 ∧ f.v2 < vs.length) ∧
      (0 ≤ f.v3 ∧ f.v3 < vs.length)) :
    ∃ a b c, vertexAt vs f.v1 = some a ∧ vertexAt vs f.v2 = some b ∧ vertexAt vs f.v3 = some c ∧
      faceNormalOf sqrt vs f = some (calculateFaceNormal sqrt a b c) := by
  obtain ⟨a, ha⟩ := vertexAt_isSome vs f.v1 hf.1
  obtain ⟨b, hb⟩ := vertexAt_isSome vs f.v2 hf.2.1
  obtain ⟨c, hc⟩ := vertexAt_isSome vs f.v3 hf.2.2
  exact ⟨a, b, c, ha, hb, hc, by simp [faceNormalOf, ha, hb, hc]⟩

theorem computeFaceNormals_eq {α : Type} [Field α] [DecidableEq α] (sqrt : α → α)
    (vs : List (Vertex α)) (faces : List Face) (h : FacesInRange vs.length faces) :
    computeFaceNormals sqrt vs faces
      = some (faces.map fun f => (faceNormalOf sqrt vs f).getD ⟨0, 0, 0⟩) := by
  unfold computeFaceNormals
  induction faces with
  | nil => rfl
  | cons f fs ih =>
    obtain ⟨a, b, c, _, _, _, e⟩ := faceNormalOf_eq sqrt vs f (h f (List.mem_cons_self _ _))
    rw [List.mapM_cons, ih (fun g hg => h g (List.mem_cons_of_mem _ hg)), e]
    simp [e]

theorem calculateFaceNormal_repeated (a b c : Vertex ℝ) (h : a = b ∨ a = c ∨ b = c) :
    calculateFaceNormal Real.sqrt a b c = ⟨0, 0, 0⟩ := by
  have e : edgeCross a b c = ⟨0, 0, 0⟩ := by
    rcases h with h | h | h <;> subst h <;> simp only [edgeCross] <;> ext <;> simp only <;> ring
  rw [calculateFaceNormal, e, normalizeGuarded_zero]

theorem occurrences_mul_faceNormal (vs : List (Vertex ℝ)) (f : Face) (i : Nat) (N : Normal ℝ)
    (hN : faceNormalOf Real.sqrt vs f = some N) :
    (⟨(occurrences f i : ℝ) * N.x, (occurrences f i : ℝ) * N.y, (occurrences f i : ℝ) * N.z⟩ :
        Normal ℝ) = if incident f i then N else ⟨0, 0, 0⟩ := by
  have hrep : (f.v1 = f.v2 ∨ f.v1 = f.v3 ∨ f.v2 = f.v3) → N = ⟨0, 0, 0⟩ := by
    intro hr
    unfold faceNormalOf at hN
    cases ha : vertexAt vs f.v1 with
    | none => simp [ha] at hN
    | some a =>
      cases hb : vertexAt vs f.v2 with
      | none => simp [ha, hb] at hN
      | some b =>
        cases hc : vertexAt vs f.v3 with
        | none => simp [ha, hb, hc] at hN
        | some c =>
          simp only [ha, hb, hc, Option.some.injEq] at hN
          rw [← hN]
          apply calculateFaceNormal_repeated
          rcases hr with hr | hr | hr
          · left; rw [hr, hb] at ha; injection ha with ha; exact ha.symm
          · right; left; rw [hr, hc] at ha; injection ha with ha; exact ha.symm
          · right; right; rw [hr, hc] at hb; injection hb with hb; exact hb.symm
  by_cases h1 : f.v1 = (i : Int) <;> by_cases h2 : f.v2 = (i : Int) <;>
    by_cases h3 : f.v3 = (i : Int)
  all_goals simp only [occurrences, incident, h1, h2, h3, if_true, if_false, or_true, true_or,
    or_self, or_false, false_or]
  all_goals first
    | (have hz : N = ⟨0, 0, 0⟩ := hrep (by omega)
       subst hz; simp)
    | (ext <;> simp)

theorem incidentNormals_cons (vs : List (Vertex ℝ)) (f : Face) (fs : List Face) (i : Nat)
    (N : Normal ℝ) (hN : faceNormalOf Real.sqrt vs f = some N) :
    incidentNormals Real.sqrt vs (f :: fs) i
      = (if incident f i then [N] else []) ++ incidentNormals Real.sqrt vs fs i := by
  by_cases h : incident f i <;> simp [incidentNormals, incidentFaces, List.filter_cons, h, hN]

theorem zip_map_self {β γ : Type} (l : List β) (g : β → γ) :
    l.zip (l.map g) = l.map fun a => (a, g a) := by
  induction l with
  | nil => rfl
  | cons a l ih => simp [ih]

theorem weightedNormalSum_eq (vs : List (Vertex ℝ)) (faces : List Face) (i : Nat)
    (h : FacesInRange vs.length faces) :
    weightedNormalSum
        (faces.map fun f => (f, (faceNormalOf Real.sqrt vs f).getD ⟨0, 0, 0⟩)) i
      = sumNormals (incidentNormals Real.sqrt vs faces i) := by
  induction faces with
  | nil => simp [weightedNormalSum, incidentNormals, incidentFaces, sumNormals]
  | cons f fs ih =>
    obtain ⟨a, b, c, _, _, _, e⟩ :=
      faceNormalOf_eq Real.sqrt vs f (h f (List.mem_cons_self _ _))
    have ih2 := ih (fun g hg => h g (List.mem_cons_of_mem _ hg))
    have hm := occurrences_mul_faceNormal vs f i _ e
    have hx := congrArg Normal.x hm
    have hy := congrArg Normal.y hm
    have hz := congrArg Normal.z hm
    simp only at hx hy hz
    rw [incidentNormals_cons vs f fs i _ e, List.map_cons, weightedNormalSum, ih2, e,
      Option.getD_some, hx, hy, hz]
    by_cases hinc : incident f i
    · simp only [hinc, if_true, List.singleton_append, sumNormals]
    · simp only [hinc, if_false, List.nil_append, zero_add]

theorem occurrenceSum_pos_iff {β : Type} (faces : List Face) (g : Face → β) (i : Nat) :
    0 < occurrenceSum (faces.map fun f => (f, g f)) i ↔ 1 ≤ (incidentFaces faces i).length := by
  induction faces with
  | nil => simp [occurrenceSum, incidentFaces]
  | cons f fs ih =>
    have hocc : 0 < occurrences f i ↔ incident f i := by
      by_cases h1 : f.v1 = (i : Int) <;> by_cases h2 : f.v2 = (i : Int) <;>
        by_cases h3 : f.v3 = (i : Int) <;> simp [occurrences, incident, h1, h2, h3]
    simp only [List.map_cons, occurrenceSum]
    by_cases hinc : incident f i
    · have := hocc.mpr hinc
      simp [incidentFaces, List.filter_cons, hinc]
      omega
    · have : occurrences f i = 0 := by
        have := hocc.not.mpr hinc
        omega
      simp only [incidentFaces, List.filter_cons, hinc, decide_False, this, zero_add]
      exact ih

theorem sumNormals_incident_of_none (vs : List (Vertex ℝ)) (faces : List Face) (i : Nat)
    (h : (incidentFaces faces i).length = 0) :
    sumNormals (incidentNormals Real.sqrt vs faces i) = ⟨0, 0, 0⟩ := by
  have : incidentFaces faces i = [] := List.eq_nil_of_length_eq_zero h
  simp [incidentNormals, this, sumNormals]

theorem scaleDiv_ne_zero (S : Normal ℝ) (a : ℝ) (ha : a ≠ 0) (hS : S ≠ ⟨0, 0, 0⟩) :
    scaleDiv S a ≠ ⟨0, 0, 0⟩ := by
  intro h
  apply hS
  have hx := congrArg Normal.x h
  have hy := congrArg Normal.y h
  have hz := congrArg Normal.z h
  simp only [scaleDiv, div_eq_zero_iff, ha, or_false] at hx hy hz
  ext <;> assumption

theorem scaleDiv_normalize (S : Normal ℝ) (a : ℝ) (ha : 0 < a) :
    scaleDiv (scaleDiv S a) (Real.sqrt (normSq (scaleDiv S a)))
      = scaleDiv S (Real.sqrt (normSq S)) := by
  have hsq : normSq (scaleDiv S a) = normSq S / (a * a) := by
    simp only [normSq, scaleDiv]
    field_simp
  have hroot : Real.sqrt (normSq (scaleDiv S a)) = Real.sqrt (normSq S) / a := by
    rw [hsq, Real.sqrt_div (normSq_nonneg S), Real.sqrt_mul_self ha.le]
  rw [hroot]
  by_cases h0 : Real.sqrt (normSq S) = 0
  · simp [scaleDiv, h0]
  · simp only [scaleDiv]
    ext <;> simp only <;> field_simp

theorem finishVertexNormal_eq (vs : List (Vertex ℝ)) (faces : List Face) (i : Nat) (c : Nat)
    (hc : 0 < c ↔ 1 ≤ (incidentFaces faces i).length) :
    finishVertexNormal Real.sqrt (sumNormals (incidentNormals Real.sqrt vs faces i)) c
      = specVertexNormal Real.sqrt vs faces i := by
  unfold finishVertexNormal specVertexNormal
  by_cases hpos : 0 < c
  · have hk := hc.mp hpos
    have hcne : (c : ℝ) ≠ 0 := by exact_mod_cast hpos.ne.symm
    have hkpos : (0 : ℝ) < ((incidentFaces faces i).length : ℝ) := by exact_mod_cast hk
    have hcpos : (0 : ℝ) < (c : ℝ) := by exact_mod_cast hpos
    by_cases hS : sumNormals (incidentNormals Real.sqrt vs faces i) = ⟨0, 0, 0⟩
    · simp only [gt_iff_lt, hpos, if_true, hS, ne_eq, not_true_eq_false, and_false, if_false]
      simp only [zero_div]
      exact normalizeGuarded_zero
    · simp only [gt_iff_lt, hpos, if_true, hk, ne_eq, hS, not_false_eq_true, and_self]
      have e := normalizeGuarded_of_ne _ (scaleDiv_ne_zero _ _ hcne hS)
      unfold scaleDiv at e
      rw [e]
      exact (scaleDiv_normalize _ _ hcpos).trans (scaleDiv_normalize _ _ hkpos).symm
  · have hk : (incidentFaces faces i).length = 0 := by
      have := hc.not.mp hpos
      omega
    simp [hpos, hk, sumNormals_incident_of_none vs faces i hk]

theorem computeVertexNormals_eq (vertices : List (Vertex ℝ)) (faces : List Face)
    (h : FacesInRange vertices.length faces) :
    ∃ normals, computeVertexNormals Real.sqrt vertices faces = some normals ∧
      normals.length = vertices.length ∧
      ∀ i, i < vertices.length →
        normals[i]? = some (specVertexNormal Real.sqrt vertices faces i) := by
  have hL : ∀ fn ∈ faces.map (fun f => (f, (faceNormalOf Real.sqrt vertices f).getD ⟨0, 0, 0⟩)),
      (0 ≤ fn.1.v1 ∧ fn.1.v1 < vertices.length) ∧ (0 ≤ fn.1.v2 ∧ fn.1.v2 < vertices.length) ∧
      (0 ≤ fn.1.v3 ∧ fn.1.v3 < vertices.length) := by
    intro fn hfn
    obtain ⟨f, hf, rfl⟩ := List.mem_map.mp hfn
    exact h f hf
  obtain ⟨out, e, l1, l2, g⟩ := foldlM_accumulateFace vertices.length _ hL
    (List.replicate vertices.length ⟨0, 0, 0⟩, List.replicate vertices.length 0)
    (by simp) (by simp)
  refine ⟨List.zipWith (finishVertexNormal Real.sqrt) out.1 out.2, ?_, by simp [l1, l2], ?_⟩
  · simp only [computeVertexNormals, computeFaceNormals_eq Real.sqrt vertices faces h,
      zip_map_self, e]
  · intro i hi
    obtain ⟨p, q⟩ := g i ⟨0, 0, 0⟩ 0 (by simp [hi]) (by simp [hi])
    rw [List.getElem?_zipWith, p, q]
    simp only [zero_add, weightedNormalSum_eq vertices faces i h, Option.map_some',
      Option.bind_some]
    rw [finishVertexNormal_eq]
    exact occurrenceSum_pos_iff faces _ i

/-- On the hinge, vertex 0 lies on both faces, whose normals are `(0,0,1)`
and `(0,1,0)`. -/
theorem hinge_vertex_zero :
    (incidentFaces hingeFaces 0).length = 2 ∧
    incidentNormals Real.sqrt (hingeVertices : List (Vertex ℝ)) hingeFaces 0
      = [⟨0, 0, 1⟩, ⟨0, 1, 0⟩] := by
  refine ⟨by decide, ?_⟩
  simp [incidentNormals, incidentFaces, hingeFaces, hingeVertices, incident, faceNormalOf, vertexAt,
    calculateFaceNormal, normalizeGuarded, normalLength, edgeCross, List.filter_cons]

/-! ### Claim C9 -/

/-- C9: for every mesh with in-range face indices, the vertex-normal
computation of `main` (over the reals) produces exactly one normal per vertex;
for a vertex `i` with `k >= 1` incident faces whose face normals sum to a
non-zero vector `S`, the normal is `(S / k)` divided by its Euclidean length,
which has length 1; when `k = 0` or `S` is the zero vector, it is the zero
vector. -/
theorem computeVertexNormals_unweighted_average (vertices : List (Vertex ℝ)) (faces : List Face)
    (h : FacesInRange vertices.length faces) :
    ∃ normals, computeVertexNormals Real.sqrt vertices faces = some normals ∧
      normals.length = vertices.length ∧
      ∀ i, i < vertices.length →
        ((1 ≤ (incidentFaces faces i).length ∧
            sumNormals (incidentNormals Real.sqrt vertices faces i) ≠ ⟨0, 0, 0⟩) →
          normals[i]? = some
            (scaleDiv
              (scaleDiv (sumNormals (incidentNormals Real.sqrt vertices faces i))
                ((incidentFaces faces i).length : ℝ))
              (Real.sqrt (normSq
                (scaleDiv (sumNormals (incidentNormals Real.sqrt vertices faces i))
                  ((incidentFaces faces i).length : ℝ))))) ∧
          ∀ n, normals[i]? = some n → normSq n = 1) ∧
        (((incidentFaces faces i).length = 0 ∨
            sumNormals (incidentNormals Real.sqrt vertices faces i) = ⟨0, 0, 0⟩) →
          normals[i]? = some ⟨0, 0, 0⟩) := by
  obtain ⟨normals, e, hlen, hget⟩ := computeVertexNormals_eq vertices faces h
  refine ⟨normals, e, hlen, fun i hi => ⟨fun hk => ?_, fun hz => ?_⟩⟩
  · have hspec := hget i hi
    simp only [specVertexNormal, hk, ne_eq, not_false_eq_true, and_self, if_true] at hspec
    refine ⟨hspec, fun n hn => ?_⟩
    rw [hspec] at hn
    injection hn with hn
    rw [← hn]
    have hkpos : (0 : ℝ) < ((incidentFaces faces i).length : ℝ) := by exact_mod_cast hk.1
    exact normSq_scaleDiv_sqrt _ (scaleDiv_ne_zero _ _ hkpos.ne.symm hk.2)
  · have hspec := hget i hi
    have hnot : ¬ (1 ≤ (incidentFaces faces i).length ∧
        sumNormals (incidentNormals Real.sqrt vertices faces i) ≠ ⟨0, 0, 0⟩) := by
      rintro ⟨h1, h2⟩
      rcases hz with hz | hz
      · omega
      · exact h2 hz
    simpa only [specVertexNormal, hnot, if_false] using hspec

/-- Witness of C9 on the hinge: vertex 0 lies on the two faces with normals
`(0,0,1)` and `(0,1,0)` and gets `((0,1,1) / 2)` normalised. -/
theorem computeVertexNormals_unweighted_average_witness :
    FacesInRange (hingeVertices : List (Vertex ℝ)).length hingeFaces ∧
    ∃ normals, computeVertexNormals Real.sqrt (hingeVertices : List (Vertex ℝ)) hingeFaces
        = some normals ∧
      normals.length = 4 ∧
      normals[0]? = some
        (scaleDiv (scaleDiv ⟨0, 1, 1⟩ 2) (Real.sqrt (normSq (scaleDiv ⟨0, 1, 1⟩ 2)))) := by
  refine ⟨by decide, ?_⟩
  obtain ⟨normals, e, hlen, hget⟩ :=
    computeVertexNormals_unweighted_average hingeVertices hingeFaces (by decide)
  refine ⟨normals, e, hlen, ?_⟩
  have h0 := (hget 0 (by decide)).1
  rw [hinge_vertex_zero.1, hinge_vertex_zero.2] at h0
  have h1 := (h0 ⟨by decide, by simp [sumNormals]⟩).1
  rw [h1]
  simp [sumNormals]

/-! ## Noise injection and key handling -/

theorem foldlM_noiseStep {α : Type} [Field α] (vs : List (Vertex α)) (normals : List (Normal α))
    (strength : α) (samples : Nat → α) (hlen : normals.length = vs.length) (n : Nat)
    (hn : n ≤ vs.length) :
    ∃ out, (List.range n).foldlM (noiseStep normals strength samples) vs = some out ∧
      out.length = vs.length ∧
      ∀ (i : Nat) (p : Vertex α) (m : Normal α), vs[i]? = some p → normals[i]? = some m →
        out[i]? = some (if i < n then
          ⟨p.x + m.x * (strength * samples i), p.y + m.y * (strength * samples i),
            p.z + m.z * (strength * samples i)⟩ else p) := by
  induction n with
  | zero => exact ⟨vs, by simp, rfl, fun i p m hp _ => by simp [hp]⟩
  | succ n ih =>
    obtain ⟨out, hout, holen, hget⟩ := ih (Nat.le_of_succ_le hn)
    have hnlt : n < vs.length := hn
    have hp : vs[n]? = some vs[n] := List.getElem?_eq_getElem hnlt
    have hnl : n < normals.length := by omega
    have hm : normals[n]? = some normals[n] := List.getElem?_eq_getElem hnl
    have hnv : out[n]? = some vs[n] := by simpa using hget n vs[n] _ hp hm
    refine ⟨out.set n ⟨vs[n].x + normals[n].x * (strength * samples n),
      vs[n].y + normals[n].y * (strength * samples n),
      vs[n].z + normals[n].z * (strength * samples n)⟩, ?_, ?_, ?_⟩
    · rw [List.range_succ, List.foldlM_append, hout]
      simp [noiseStep, hnv, hm]
    · simp [holen]
    · intro i p m hip him
      rw [List.getElem?_set]
      by_cases hin : n = i
      · subst hin
        rw [hp] at hip
        rw [hm] at him
        injection hip with hip
        injection him with him
        simp [holen, hnlt, hip, him]
      · have h1 := hget i p m hip him
        simp only [hin, if_false, h1]
        by_cases hlt : i < n
        · simp [hlt, Nat.lt_succ_of_lt hlt]
        · have : ¬ i < n + 1 := by omega
          simp [hlt, this]

theorem addNoiseToVertices_spec {α : Type} [Field α] (vs : List (Vertex α))
    (normals : List (Normal α)) (strength : α) (samples : Nat → α)
    (hlen : normals.length = vs.length) :
    ∃ out, addNoiseToVertices vs normals strength samples = some out ∧
      out.length = vs.length ∧
      ∀ (i : Nat) (p : Vertex α) (m : Normal α), vs[i]? = some p → normals[i]? = some m →
        out[i]? = some ⟨p.x + m.x * (strength * samples i), p.y + m.y * (strength * samples i),
            p.z + m.z * (strength * samples i)⟩ := by
  obtain ⟨out, hout, holen, hget⟩ :=
    foldlM_noiseStep vs normals strength samples hlen vs.length (Nat.le_refl _)
  refine ⟨out, hout, holen, fun i p m hp hm => ?_⟩
  have hi : i < vs.length := (List.getElem?_eq_some_iff.mp hp).1
  simpa [hi] using hget i p m hp hm

theorem noiseKey_inv {α : Type} [Field α] (sc : Scene α) (orig : List (Vertex α))
    (hnormals : sc.vertexNormals.length = orig.length) (keyN : Bool) (samples : Nat → α)
    (s : LoopState α) (hs : LoopInv orig s) :
    ∃ s1, noiseKey sc keyN samples s = some s1 ∧ LoopInv orig s1 ∧
      s1.keyDPressed = s.keyDPressed ∧ s1.denoiseLevel = s.denoiseLevel := by
  obtain ⟨h1, h2, h3, h4⟩ := hs
  cases keyN with
  | false => exact ⟨s, by simp [noiseKey], ⟨h1, h2, h3, h4⟩, rfl, rfl⟩
  | true =>
    obtain ⟨out, e, hl, _⟩ := addNoiseToVertices_spec s.vertices sc.vertexNormals
      sc.noiseStrength samples (by rw [hnormals, h2])
    exact ⟨{ s with vertices := out }, by simp [noiseKey, e], ⟨h1, by simp [hl, h2], h3, h4⟩,
      rfl, rfl⟩

theorem denoiseKey_inv {α : Type} [Field α] (sc : Scene α) (orig : List (Vertex α))
    (hfaces : FacesInRange orig.length sc.faces) (keyM : Bool)
    (s : LoopState α) (hs : LoopInv orig s) :
    ∃ s1, denoiseKey sc keyM s = some s1 ∧ LoopInv orig s1 ∧ s1.keyDPressed = keyM ∧
      s1.denoiseLevel
        = (s.denoiseLevel + ((if keyM && !s.keyDPressed then 1 else 0 : Nat) : Int)) % 4 ∧
      ((keyM && !s.keyDPressed) = true → s.denoiseLevel = 3 →
        s1 = ⟨orig, orig, true, 0⟩) := by
  obtain ⟨h1, h2, h3, h4⟩ := hs
  cases keyM with
  | false =>
    refine ⟨{ s with keyDPressed := false }, by simp [denoiseKey], ⟨h1, h2, h3, h4⟩, rfl, ?_, ?_⟩
    · simp only [Bool.false_and, Bool.false_eq_true, if_false, Nat.cast_zero]; omega
    · simp
  | true =>
    cases hp : s.keyDPressed with
    | true =>
      refine ⟨s, by simp [denoiseKey, hp], ⟨h1, h2, h3, h4⟩, hp, ?_, ?_⟩
      · simp only [Bool.not_true, Bool.and_false, Bool.false_eq_true, if_false, Nat.cast_zero]
        omega
      · simp
    | false =>
      by_cases hl : s.denoiseLevel + 1 > 3
      · have h33 : s.denoiseLevel = 3 := by omega
        refine ⟨⟨s.originalVertices, s.originalVertices, true, 0⟩, by simp [denoiseKey, hp, hl],
          ⟨h1, by simp [h1], by simp, by simp⟩, rfl, ?_, ?_⟩
        · simp only [Bool.not_false, Bool.and_self, if_true, Nat.cast_one]; omega
        · intro _ _; simp [h1]
      · obtain ⟨out, e, hlen, _⟩ := laplacianSmoothing_spec s.vertices sc.faces
          sc.smoothingFactor (by rw [h2]; exact hfaces)
        refine ⟨⟨out, s.originalVertices, true, s.denoiseLevel + 1⟩,
          by simp [denoiseKey, hp, hl, e], ⟨h1, by simp [hlen, h2], by simp only; omega, by simp only; omega⟩,
          rfl, ?_, ?_⟩
        · simp only [Bool.not_false, Bool.and_self, if_true, Nat.cast_one]; omega
        · intro _ h3; omega

theorem frame_inv {α : Type} [Field α] (sc : Scene α) (orig : List (Vertex α))
    (hfaces : FacesInRange orig.length sc.faces)
    (hnormals : sc.vertexNormals.length = orig.length) (inp : FrameInput α)
    (s : LoopState α) (hs : LoopInv orig s) :
    ∃ s1, frame sc s inp = some s1 ∧ LoopInv orig s1 ∧ s1.keyDPressed = inp.keyM ∧
      s1.denoiseLevel
        = (s.denoiseLevel + ((if inp.keyM && !s.keyDPressed then 1 else 0 : Nat) : Int)) % 4 ∧
      ((inp.keyM && !s.keyDPressed) = true → s.denoiseLevel = 3 →
        s1 = ⟨orig, orig, true, 0⟩) := by
  obtain ⟨s1, e1, i1, k1, l1⟩ := noiseKey_inv sc orig hnormals inp.keyN inp.samples s hs
  obtain ⟨s2, e2, i2, k2, l2, r2⟩ := denoiseKey_inv sc orig hfaces inp.keyM s1 i1
  refine ⟨s2, by simp [frame, e1, e2], i2, k2, ?_, ?_⟩
  · rw [l2, k1, l1]
  · rw [k1, l1] at r2; exact r2

theorem runFrames_inv {α : Type} [Field α] (sc : Scene α) (orig : List (Vertex α))
    (hfaces : FacesInRange orig.length sc.faces)
    (hnormals : sc.vertexNormals.length = orig.length) (frames : List (FrameInput α))
    (s : LoopState α) (hs : LoopInv orig s) :
    ∃ s1, runFrames sc frames s = some s1 ∧ LoopInv orig s1 ∧
      s1.keyDPressed = pressedAfter frames s.keyDPressed ∧
      s1.denoiseLevel = (s.denoiseLevel + (countTriggers frames s.keyDPressed : Int)) % 4 := by
  induction frames generalizing s with
  | nil =>
    obtain ⟨h1, h2, h3, h4⟩ := hs
    refine ⟨s, rfl, ⟨h1, h2, h3, h4⟩, rfl, ?_⟩
    simp only [countTriggers, Nat.cast_zero]; omega
  | cons inp rest ih =>
    obtain ⟨s1, e1, i1, k1, l1, _⟩ := frame_inv sc orig hfaces hnormals inp s hs
    obtain ⟨s2, e2, i2, k2, l2⟩ := ih s1 i1
    refine ⟨s2, by simp [runFrames, List.foldlM_cons, e1]; exact e2, i2, ?_, ?_⟩
    · rw [k2, k1]; rfl
    · rw [l2, l1, k1]
      simp only [countTriggers, Nat.cast_add]
      omega

theorem runFrames_append {α : Type} [Field α] (sc : Scene α) (xs ys : List (FrameInput α))
    (s : LoopState α) :
    runFrames sc (xs ++ ys) s = (runFrames sc xs s).bind (runFrames sc ys) := by
  simp [runFrames, List.foldlM_append]

theorem countTriggers_append {α : Type} (xs ys : List (FrameInput α)) (pressed : Bool) :
    countTriggers (xs ++ ys) pressed
      = countTriggers xs pressed + countTriggers ys (pressedAfter xs pressed) := by
  induction xs generalizing pressed with
  | nil => simp [countTriggers, pressedAfter]
  | cons x xs ih => simp [countTriggers, pressedAfter, ih, Nat.add_assoc]

theorem initialState_inv {α : Type} (orig : List (Vertex α)) : LoopInv orig (initialState orig) :=
  ⟨rfl, rfl, by simp [initialState], by simp [initialState]⟩

/-! ### Claim C3 -/

/-- C3: let the mesh satisfy its invariants (face indices in range, one normal
per vertex).  From the initial state (`denoiseLevel = 0`,
`vertices = originalVertices = orig`), every run of frames that contains
exactly four advance triggers and ends with the fourth one, with key N
(`addNoiseToVertices`) down in any of the frames, ends in `denoiseLevel = 0`
with `vertices` equal to the pristine snapshot, i.e. in the initial state with
the key still held; releasing and pressing key M once more gives exactly
`laplacianSmoothing(orig, faces, smoothingFactor)` at level 1, the result of
the first trigger; and no run ever changes `originalVertices`. -/
theorem denoise_cycle_period_four {α : Type} [Field α] (sc : Scene α) (orig : List (Vertex α))
    (hfaces : FacesInRange orig.length sc.faces)
    (hnormals : sc.vertexNormals.length = orig.length)
    (pre : List (FrameInput α)) (last : FrameInput α)
    (hpre : countTriggers pre false = 3)
    (hlast : countTriggers (pre ++ [last]) false = 4) :
    ∃ smoothed, laplacianSmoothing orig sc.faces sc.smoothingFactor = some smoothed ∧
      runFrames sc (pre ++ [last]) (initialState orig) = some ⟨orig, orig, true, 0⟩ ∧
      denoiseKey sc true (initialState orig) = some ⟨smoothed, orig, true, 1⟩ ∧
      (denoiseKey sc false ⟨orig, orig, true, 0⟩).bind (denoiseKey sc true)
        = some ⟨smoothed, orig, true, 1⟩ ∧
      ∀ frames s, runFrames sc frames (initialState orig) = some s →
        s.originalVertices = orig := by
  obtain ⟨smoothed, hsm, _, _⟩ := laplacianSmoothing_spec orig sc.faces sc.smoothingFactor hfaces
  obtain ⟨s3, e3, i3, k3, l3⟩ :=
    runFrames_inv sc orig hfaces hnormals pre (initialState orig) (initialState_inv orig)
  have htrig : (last.keyM && !s3.keyDPressed) = true := by
    rw [countTriggers_append, hpre] at hlast
    rw [k3]
    simp only [initialState]
    simp only [countTriggers] at hlast
    by_cases hc : (last.keyM && !pressedAfter pre false) = true
    · exact hc
    · simp [hc] at hlast
  have hl3 : s3.denoiseLevel = 3 := by
    rw [l3]
    simp only [initialState, hpre]
    norm_num
  obtain ⟨s4, e4, _, _, _, r4⟩ := frame_inv sc orig hfaces hnormals last s3 i3
  refine ⟨smoothed, hsm, ?_, ?_, ?_, ?_⟩
  · rw [runFrames_append, e3, Option.some_bind]
    simp only [runFrames, List.foldlM_cons, List.foldlM_nil, e4]
    rw [← r4 htrig hl3]
    rfl
  · simp [denoiseKey, initialState, hsm]
  · simp [denoiseKey, hsm]
  · intro frames s hs
    obtain ⟨s1, e1, i1, _⟩ :=
      runFrames_inv sc orig hfaces hnormals frames (initialState orig) (initialState_inv orig)
    rw [e1] at hs
    injection hs with hs
    rw [← hs]
    exact i1.1

/-- Witness of C3: three presses on the tetrahedron with noise in between,
then a fourth press with key N down. -/
theorem denoise_cycle_period_four_witness :
    FacesInRange tetraVertices.length tetraScene.faces ∧
    countTriggers threePresses false = 3 ∧
    ∃ smoothed, laplacianSmoothing tetraVertices tetraScene.faces tetraScene.smoothingFactor
        = some smoothed ∧
      runFrames tetraScene (threePresses ++ [⟨true, true, fun _ => 1⟩])
        (initialState tetraVertices) = some ⟨tetraVertices, tetraVertices, true, 0⟩ :=
  ⟨by decide, by decide,
    (denoise_cycle_period_four tetraScene tetraVertices (by decide) (by decide) threePresses
      ⟨true, true, fun _ => 1⟩ (by decide) (by decide)).imp fun _ h => ⟨h.1, h.2.1⟩⟩

/-! ### Claim C11 -/

/-- C11: for every vertex list, every normal list of the same length and every
sequence of samples (in particular every sequence drawn from `[-1, 1)`),
`addNoiseToVertices` with `noiseStrength = 0` returns the vertex list
unchanged; for a general strength `s` it returns a list of the same length
in which vertex `i` is `old[i] + normal[i] * (s * r_i)`, `r_i` being the
`i`-th sample.  The normals are a read-only argument. -/
theorem addNoiseToVertices_displacement {α : Type} [Field α] (vertices : List (Vertex α))
    (vertexNormals : List (Normal α)) (noiseStrength : α) (samples : Nat → α)
    (hlen : vertexNormals.length = vertices.length) :
    addNoiseToVertices vertices vertexNormals 0 samples = some vertices ∧
    ∃ out, addNoiseToVertices vertices vertexNormals noiseStrength samples = some out ∧
      out.length = vertices.length ∧
      ∀ (i : Nat) (old : Vertex α) (normal : Normal α),
        vertices[i]? = some old → vertexNormals[i]? = some normal →
        out[i]? = some ⟨old.x + normal.x * (noiseStrength * samples i),
          old.y + normal.y * (noiseStrength * samples i),
          old.z + normal.z * (noiseStrength * samples i)⟩ := by
  refine ⟨?_, addNoiseToVertices_spec vertices vertexNormals noiseStrength samples hlen⟩
  obtain ⟨out, hout, holen, hget⟩ := addNoiseToVertices_spec vertices vertexNormals 0 samples hlen
  rw [hout]
  congr 1
  apply List.ext_getElem?
  intro i
  by_cases hi : i < vertices.length
  · have hp : vertices[i]? = some vertices[i] := List.getElem?_eq_getElem hi
    have hn : i < vertexNormals.length := by omega
    have hm : vertexNormals[i]? = some vertexNormals[i] := List.getElem?_eq_getElem hn
    rw [hget i _ _ hp hm, hp]
    simp
  · have h1 : vertices.length ≤ i := Nat.le_of_not_lt hi
    rw [List.getElem?_eq_none h1, List.getElem?_eq_none (holen ▸ h1)]

/-- Witness of C11 on the tetrahedron with every sample equal to 1/2. -/
theorem addNoiseToVertices_displacement_witness :
    tetraScene.vertexNormals.length = tetraVertices.length ∧
    addNoiseToVertices tetraVertices tetraScene.vertexNormals 0 (fun _ => 1 / 2)
      = some tetraVertices ∧
    ∃ out, addNoiseToVertices tetraVertices tetraScene.vertexNormals (1 / 100)
        (fun _ => 1 / 2) = some out ∧ out.length = 4 ∧
      out[1]? = some ⟨3 + 1 * (1 / 100 * (1 / 2)), 0 + 0 * (1 / 100 * (1 / 2)),
        0 + 0 * (1 / 100 * (1 / 2))⟩ := by
  have h := addNoiseToVertices_displacement tetraVertices tetraScene.vertexNormals (1 / 100)
    (fun _ => 1 / 2) (by decide)
  have h0 := addNoiseToVertices_displacement tetraVertices tetraScene.vertexNormals 0
    (fun _ => 1 / 2) (by decide)
  refine ⟨by decide, h0.1, ?_⟩
  obtain ⟨out, e, hl, hget⟩ := h.2
  exact ⟨out, e, hl, hget 1 ⟨3, 0, 0⟩ ⟨1, 0, 0⟩ rfl rfl⟩

theorem runKeys_held {α : Type} [Field α] (sc : Scene α) (s : LoopState α)
    (h : s.keyDPressed = true) (n : Nat) : runKeys sc (List.replicate n true) s = some s := by
  induction n with
  | zero => rfl
  | succ n ih =>
    have e : denoiseKey sc true s = some s := by simp [denoiseKey, h]
    rw [List.replicate_succ, runKeys, List.foldlM_cons, e]
    exact ih

theorem denoiseKey_advance {α : Type} [Field α] (sc : Scene α) (orig : List (Vertex α))
    (hfaces : FacesInRange orig.length sc.faces) (s : LoopState α) (hs : LoopInv orig s)
    (hup : s.keyDPressed = false) :
    ∃ s1, denoiseKey sc true s = some s1 ∧ s1.keyDPressed = true ∧
      s1.denoiseLevel = (s.denoiseLevel + 1) % 4 ∧
      s1.originalVertices = s.originalVertices ∧
      (s.denoiseLevel = 3 → s1.vertices = s.originalVertices) ∧
      (s.denoiseLevel < 3 →
        laplacianSmoothing s.vertices sc.faces sc.smoothingFactor = some s1.vertices) := by
  obtain ⟨h1, h2, h3, h4⟩ := hs
  by_cases hl : s.denoiseLevel + 1 > 3
  · have h33 : s.denoiseLevel = 3 := by omega
    refine ⟨⟨s.originalVertices, s.originalVertices, true, 0⟩, by simp [denoiseKey, hup, hl],
      rfl, ?_, rfl, fun _ => rfl, fun h => ?_⟩
    · simp only; omega
    · omega
  · obtain ⟨out, e, _, _⟩ := laplacianSmoothing_spec s.vertices sc.faces
      sc.smoothingFactor (by rw [h2]; exact hfaces)
    refine ⟨⟨out, s.originalVertices, true, s.denoiseLevel + 1⟩,
      by simp [denoiseKey, hup, hl, e], rfl, ?_, rfl, fun h => ?_, fun _ => e⟩
    · simp only; omega
    · omega

/-! ### Claim C12 -/

/-- C12: the advance action is edge-triggered.  For a mesh satisfying its
invariants, every sequence of frames run from the initial state ends in a
state `s` whose `denoiseLevel` lies in `{0,1,2,3}` and equals the number of
frames in which key M went from up to down, modulo 4.  From such a state, a
frame with key M up changes neither `denoiseLevel` nor `vertices`; if the
key was up, a run of `n + 1` frames with the key down gives exactly the state
of its first frame, which advances once (level plus one modulo 4, with one
smoothing pass, or the snapshot when the level was 3); if the key was
already down, frames with the key down change nothing. -/
theorem denoise_edge_triggered {α : Type} [Field α] (sc : Scene α) (orig : List (Vertex α))
    (hfaces : FacesInRange orig.length sc.faces)
    (hnormals : sc.vertexNormals.length = orig.length) (frames : List (FrameInput α)) :
    ∃ s, runFrames sc frames (initialState orig) = some s ∧
      (0 ≤ s.denoiseLevel ∧ s.denoiseLevel ≤ 3) ∧
      s.denoiseLevel = (countTriggers frames false : Int) % 4 ∧
      (∃ s0, denoiseKey sc false s = some s0 ∧ s0.keyDPressed = false ∧
        s0.denoiseLevel = s.denoiseLevel ∧ s0.vertices = s.vertices) ∧
      (s.keyDPressed = false → ∀ n : Nat, ∃ s1,
        denoiseKey sc true s = some s1 ∧
        runKeys sc (List.replicate (n + 1) true) s = some s1 ∧
        s1.denoiseLevel = (s.denoiseLevel + 1) % 4 ∧
        (s.denoiseLevel = 3 → s1.vertices = orig) ∧
        (s.denoiseLevel < 3 →
          laplacianSmoothing s.vertices sc.faces sc.smoothingFactor = some s1.vertices)) ∧
      (s.keyDPressed = true → ∀ n : Nat, runKeys sc (List.replicate n true) s = some s) := by
  obtain ⟨s, e, inv, _, hl⟩ :=
    runFrames_inv sc orig hfaces hnormals frames (initialState orig) (initialState_inv orig)
  refine ⟨s, e, ⟨inv.2.2.1, inv.2.2.2⟩, ?_, ?_, ?_, ?_⟩
  · rw [hl]; simp [initialState]
  · exact ⟨{ s with keyDPressed := false }, by simp [denoiseKey], rfl, rfl, rfl⟩
  · intro hup n
    obtain ⟨s1, e1, k1, l1, o1, r1, m1⟩ := denoiseKey_advance sc orig hfaces s inv hup
    refine ⟨s1, e1, ?_, l1, fun h => ?_, m1⟩
    · rw [List.replicate_succ, runKeys, List.foldlM_cons, e1]
      exact runKeys_held sc s1 k1 n
    · rw [r1 h, inv.1]
  · intro hdown n
    exact runKeys_held sc s hdown n

/-- Witness of C12: after the three presses on the tetrahedron the level is 3. -/
theorem denoise_edge_triggered_witness :
    FacesInRange tetraVertices.length tetraScene.faces ∧
    tetraScene.vertexNormals.length = tetraVertices.length ∧
    ∃ s, runFrames tetraScene threePresses (initialState tetraVertices) = some s ∧
      s.denoiseLevel = 3 := by
  obtain ⟨s, e, _, hl, _⟩ :=
    denoise_edge_triggered tetraScene tetraVertices (by decide) (by decide) threePresses
  refine ⟨by decide, by decide, s, e, ?_⟩
  rw [hl]
  decide

/-! ## OBJ loader -/

theorem readWord_eq (line : List Char) :
    readWord ⟨line, false⟩ = (recordKind line, ⟨recordFields line, (recordKind line).isEmpty⟩) := by
  simp [readWord, recordKind, recordFields]

theorem numGetInt_nil : numGetInt [] = NumGet.fail 0 := by
  simp [numGetInt, readSign]

theorem numGetFloat_nil (lib : NumLib) : numGetFloat lib [] = NumGet.fail (F32.fin 0) := by
  simp [numGetFloat, readDecimal, readSign, readFraction]

theorem numGetFloat_of_strict (lib : NumLib) (cs : List Char) (v : F32) (rest : List Char)
    (h : numGetFloat strictLib cs = NumGet.ok v rest) : numGetFloat lib cs = NumGet.ok v rest := by
  unfold numGetFloat at h ⊢
  cases hd : readDecimal cs with
  | none => rw [hd] at h; simp at h
  | some p =>
    obtain ⟨d, r⟩ := p
    rw [hd] at h
    simp only at h ⊢
    cases hr : F32.round d with
    | fin q =>
      rw [hr] at h
      simp only at h ⊢
      by_cases ht : d ≠ 0 ∧ (if d < 0 then -d else d) < 1 / 2 ^ 126
      · have hs : d ≠ 0 ∧ (if d < 0 then -d else d) < 1 / 2 ^ 126 ∧
            strictLib.tinyFails d = true := ⟨ht.1, ht.2, rfl⟩
        rw [if_pos hs] at h
        simp at h
      · have hs : ¬ (d ≠ 0 ∧ (if d < 0 then -d else d) < 1 / 2 ^ 126 ∧
            strictLib.tinyFails d = true) := fun hc => ht ⟨hc.1, hc.2.1⟩
        have hl : ¬ (d ≠ 0 ∧ (if d < 0 then -d else d) < 1 / 2 ^ 126 ∧
            lib.tinyFails d = true) := fun hc => ht ⟨hc.1, hc.2.1⟩
        rw [if_neg hs] at h
        rw [if_neg hl]
        exact h
    | inf s => rw [hr] at h; simp at h
    | nan => rw [hr] at h; simp at h

theorem numGetInt_range (cs : List Char) (v : Int) (rest : List Char)
    (h : numGetInt cs = NumGet.ok v rest) : -2147483648 ≤ v ∧ v ≤ 2147483647 := by
  unfold numGetInt at h
  simp only at h
  by_cases hd : ((readSign cs).2.takeWhile isDigit).isEmpty = true
  · simp [hd] at h
  · rw [if_neg hd] at h
    generalize (if (readSign cs).1 = true
      then -(digitsValue ((readSign cs).2.takeWhile isDigit) : Int)
      else (digitsValue ((readSign cs).2.takeWhile isDigit) : Int)) = w at h
    by_cases h1 : w > 2147483647
    · simp [h1] at h
    · rw [if_neg h1] at h
      by_cases h2 : w < -2147483648
      · simp [h2] at h
      · rw [if_neg h2] at h
        simp only [NumGet.ok.injEq] at h
        rw [← h.1]
        omega

theorem wrapInt32_of_range (v : Int) (h : -2147483648 ≤ v ∧ v ≤ 2147483647) :
    wrapInt32 v = v := by
  unfold wrapInt32
  omega

theorem extract_of_field {β : Type} (specGet codeGet : List Char → NumGet β) (z : β)
    (hnil : specGet [] = NumGet.fail z)
    (hsub : ∀ cs v rest, specGet cs = NumGet.ok v rest → codeGet cs = NumGet.ok v rest)
    (cs : List Char) (old v : β) (rest : List Char)
    (h : numericField specGet cs = some (v, rest)) :
    extract codeGet ⟨cs, false⟩ old = (v, ⟨rest, false⟩) := by
  unfold numericField at h
  unfold extract
  cases hd : cs.dropWhile isSpace with
  | nil => rw [hd, hnil] at h; simp at h
  | cons c t =>
    rw [hd] at h
    cases hn : specGet (c :: t) with
    | ok w r =>
      rw [hn] at h
      by_cases he : fieldEnds r = true
      · simp only [he, if_true, Option.some.injEq, Prod.mk.injEq] at h
        simp [hsub _ _ _ hn, h.1, h.2]
      · simp [he] at h
    | fail w => rw [hn] at h; simp at h

theorem numericField_ok {β : Type} (numGet : List Char → NumGet β) (cs : List Char) (v : β)
    (rest : List Char) (h : numericField numGet cs = some (v, rest)) :
    numGet (cs.dropWhile isSpace) = NumGet.ok v rest := by
  unfold numericField at h
  cases hn : numGet (cs.dropWhile isSpace) with
  | ok w r =>
    rw [hn] at h
    by_cases he : fieldEnds r = true
    · simp only [he, if_true, Option.some.injEq, Prod.mk.injEq] at h
      rw [h.1, h.2]
    · simp [he] at h
  | fail w => rw [hn] at h; simp at h

theorem threeFields_some {β : Type} (numGet : List Char → NumGet β) (cs : List Char)
    (a b c : β) (h : threeFields numGet cs = some (a, b, c)) :
    ∃ r1 r2 r3, numericField numGet cs = some (a, r1) ∧ numericField numGet r1 = some (b, r2) ∧
      numericField numGet r2 = some (c, r3) := by
  unfold threeFields at h
  cases h1 : numericField numGet cs with
  | none => simp [h1] at h
  | some p1 =>
    obtain ⟨a1, r1⟩ := p1
    simp only [h1] at h
    cases h2 : numericField numGet r1 with
    | none => simp [h2] at h
    | some p2 =>
      obtain ⟨b1, r2⟩ := p2
      simp only [h2] at h
      cases h3 : numericField numGet r2 with
      | none => simp [h3] at h
      | some p3 =>
        obtain ⟨c1, r3⟩ := p3
        simp only [h3, Option.some.injEq, Prod.mk.injEq] at h
        obtain ⟨rfl, rfl, rfl⟩ := h
        exact ⟨r1, r2, r3, rfl, h2, h3⟩

theorem threeFields_int_range (cs : List Char) (a b c : Int)
    (h : threeFields numGetInt cs = some (a, b, c)) :
    (-2147483648 ≤ a ∧ a ≤ 2147483647) ∧ (-2147483648 ≤ b ∧ b ≤ 2147483647) ∧
      (-2147483648 ≤ c ∧ c ≤ 2147483647) := by
  obtain ⟨r1, r2, r3, h1, h2, h3⟩ := threeFields_some numGetInt cs a b c h
  exact ⟨numGetInt_range _ _ _ (numericField_ok _ _ _ _ h1),
    numGetInt_range _ _ _ (numericField_ok _ _ _ _ h2),
    numGetInt_range _ _ _ (numericField_ok _ _ _ _ h3)⟩

theorem extract_three {β : Type} (specGet codeGet : List Char → NumGet β) (z : β)
    (hnil : specGet [] = NumGet.fail z)
    (hsub : ∀ cs v rest, specGet cs = NumGet.ok v rest → codeGet cs = NumGet.ok v rest)
    (cs : List Char) (a b c o1 o2 o3 : β)
    (h : threeFields specGet cs = some (a, b, c)) :
    (extract codeGet ⟨cs, false⟩ o1).1 = a ∧
    (extract codeGet (extract codeGet ⟨cs, false⟩ o1).2 o2).1 = b ∧
    (extract codeGet (extract codeGet (extract codeGet ⟨cs, false⟩ o1).2 o2).2 o3).1 = c := by
  obtain ⟨r1, r2, r3, h1, h2, h3⟩ := threeFields_some specGet cs a b c h
  rw [extract_of_field specGet codeGet z hnil hsub cs o1 a r1 h1]
  simp only
  rw [extract_of_field specGet codeGet z hnil hsub r1 o2 b r2 h2]
  simp only
  rw [extract_of_field specGet codeGet z hnil hsub r2 o3 c r3 h3]
  simp

theorem loadLine_vertex (lib : NumLib) (junk : Vertex F32 × Face)
    (acc : List (Vertex F32) × List Face)
    (line : List Char) (x y z : F32) (hk : recordKind line = ['v'])
    (h : threeFields (numGetFloat strictLib) (recordFields line) = some (x, y, z)) :
    loadLine lib junk acc line
      = (acc.1 ++ [⟨x * scaleFactor, y * scaleFactor, z * scaleFactor⟩], acc.2) := by
  obtain ⟨e1, e2, e3⟩ := extract_three (numGetFloat strictLib) (numGetFloat lib) (F32.fin 0)
    (numGetFloat_nil strictLib) (numGetFloat_of_strict lib) (recordFields line)
    x y z junk.1.x junk.1.y junk.1.z h
  simp only [loadLine, readWord_eq, hk, List.isEmpty_cons, if_true, e1, e2, e3]

theorem loadLine_face_wrap (lib : NumLib) (junk : Vertex F32 × Face)
    (acc : List (Vertex F32) × List Face)
    (line : List Char) (a b c : Int) (hk : recordKind line = ['f'])
    (h : threeFields numGetInt (recordFields line) = some (a, b, c)) :
    loadLine lib junk acc line
      = (acc.1, acc.2 ++ [⟨wrapInt32 (a - 1), wrapInt32 (b - 1), wrapInt32 (c - 1)⟩]) := by
  have hv : ¬ (['f'] = ['v']) := by decide
  obtain ⟨e1, e2, e3⟩ := extract_three numGetInt numGetInt 0 numGetInt_nil
    (fun _ _ _ hh => hh) (recordFields line) a b c junk.2.v1 junk.2.v2 junk.2.v3 h
  simp only [loadLine, readWord_eq, hk, List.isEmpty_cons, hv, if_true, if_false, e1, e2, e3]

theorem loadLine_face (lib : NumLib) (junk : Vertex F32 × Face)
    (acc : List (Vertex F32) × List Face)
    (line : List Char) (a b c : Int) (hk : recordKind line = ['f'])
    (h : threeFields numGetInt (recordFields line) = some (a, b, c))
    (ha : -2147483648 < a) (hb : -2147483648 < b) (hc : -2147483648 < c) :
    loadLine lib junk acc line = (acc.1, acc.2 ++ [⟨a - 1, b - 1, c - 1⟩]) := by
  obtain ⟨⟨_, a2⟩, ⟨_, b2⟩, _, c2⟩ := threeFields_int_range _ a b c h
  rw [loadLine_face_wrap lib junk acc line a b c hk h,
    wrapInt32_of_range (a - 1) (by omega), wrapInt32_of_range (b - 1) (by omega),
    wrapInt32_of_range (c - 1) (by omega)]

theorem loadLine_other (lib : NumLib) (junk : Vertex F32 × Face)
    (acc : List (Vertex F32) × List Face)
    (line : List Char) (hv : recordKind line ≠ ['v']) (hf : recordKind line ≠ ['f']) :
    loadLine lib junk acc line = acc := by
  simp only [loadLine, readWord_eq, hv, hf, if_false]

theorem loadLine_valid (n : Nat) (lib : NumLib) (junk : Vertex F32 × Face)
    (acc : List (Vertex F32) × List Face) (line : List Char) (h : ValidLine n line) :
    loadLine lib junk acc line
      = (acc.1 ++ (vertexOfLine line).toList, acc.2 ++ (faceOfLine line).toList) := by
  by_cases hv : recordKind line = ['v']
  · have hf : recordKind line ≠ ['f'] := by rw [hv]; decide
    have hs := h.1 hv
    cases ht : threeFields (numGetFloat strictLib) (recordFields line) with
    | none => rw [ht] at hs; simp at hs
    | some p =>
      obtain ⟨x, y, z⟩ := p
      rw [loadLine_vertex lib junk acc line x y z hv ht]
      simp [vertexOfLine, faceOfLine, hv, hf, ht]
  · by_cases hf : recordKind line = ['f']
    · have hs := h.2 hf
      cases ht : threeFields numGetInt (recordFields line) with
      | none => rw [ht] at hs; exact hs.elim
      | some p =>
        obtain ⟨a, b, c⟩ := p
        rw [ht] at hs
        obtain ⟨⟨a1, _⟩, ⟨b1, _⟩, c1, _⟩ := hs
        rw [loadLine_face lib junk acc line a b c hf ht (by omega) (by omega) (by omega)]
        simp [vertexOfLine, faceOfLine, hv, hf, ht]
    · rw [loadLine_other lib junk acc line hv hf]
      simp [vertexOfLine, faceOfLine, hv, hf]

theorem filterMap_cons_toList {β γ : Type} (f : β → Option γ) (a : β) (l : List β) :
    List.filterMap f (a :: l) = (f a).toList ++ List.filterMap f l := by
  cases h : f a <;> simp [List.filterMap_cons, h]

theorem loadLines_valid (n : Nat) (lib : NumLib) (junk : Nat → Vertex F32 × Face)
    (lines : List (List Char)) (h : ∀ line ∈ lines, ValidLine n line) (k : Nat)
    (acc : List (Vertex F32) × List Face) :
    loadLines lib junk k lines acc
      = (acc.1 ++ lines.filterMap vertexOfLine, acc.2 ++ lines.filterMap faceOfLine) := by
  induction lines generalizing k acc with
  | nil => simp [loadLines]
  | cons line rest ih =>
    rw [loadLines, loadLine_valid n lib (junk k) acc line (h line (List.mem_cons_self _ _)),
      ih (fun l hl => h l (List.mem_cons_of_mem _ hl)), filterMap_cons_toList,
      filterMap_cons_toList]
    simp [List.append_assoc]

theorem vertexOfLine_count (n : Nat) (lines : List (List Char))
    (h : ∀ line ∈ lines, ValidLine n line) :
    (lines.filterMap vertexOfLine).length = countVertexLines lines := by
  induction lines with
  | nil => rfl
  | cons line rest ih =>
    have ih2 := ih (fun l hl => h l (List.mem_cons_of_mem _ hl))
    have hl := h line (List.mem_cons_self _ _)
    rw [filterMap_cons_toList, List.length_append, ih2]
    by_cases hv : recordKind line = ['v']
    · have hs := hl.1 hv
      cases ht : threeFields (numGetFloat strictLib) (recordFields line) with
      | none => rw [ht] at hs; simp at hs
      | some p => simp [vertexOfLine, hv, ht, countVertexLines, List.filter_cons]; omega
    · simp [vertexOfLine, hv, countVertexLines, List.filter_cons]

theorem faceOfLine_count (n : Nat) (lines : List (List Char))
    (h : ∀ line ∈ lines, ValidLine n line) :
    (lines.filterMap faceOfLine).length = countFaceLines lines := by
  induction lines with
  | nil => rfl
  | cons line rest ih =>
    have ih2 := ih (fun l hl => h l (List.mem_cons_of_mem _ hl))
    have hl := h line (List.mem_cons_self _ _)
    rw [filterMap_cons_toList, List.length_append, ih2]
    by_cases hf : recordKind line = ['f']
    · have hs := hl.2 hf
      cases ht : threeFields numGetInt (recordFields line) with
      | none => rw [ht] at hs; exact hs.elim
      | some p => simp [faceOfLine, hf, ht, countFaceLines, List.filter_cons]; omega
    · simp [faceOfLine, hf, countFaceLines, List.filter_cons]

theorem faceOfLine_inRange (n : Nat) (lines : List (List Char))
    (h : ∀ line ∈ lines, ValidLine n line) :
    FacesInRange n (lines.filterMap faceOfLine) := by
  intro f hf
  obtain ⟨line, hline, hfl⟩ := List.mem_filterMap.mp hf
  have hl := h line hline
  unfold faceOfLine at hfl
  by_cases hk : recordKind line = ['f']
  · have hs := hl.2 hk
    cases ht : threeFields numGetInt (recordFields line) with
    | none => rw [ht] at hs; exact hs.elim
    | some p =>
      obtain ⟨a, b, c⟩ := p
      rw [ht] at hs
      simp only [hk, if_true, ht, Option.map_some', Option.some.injEq] at hfl
      subst hfl
      obtain ⟨⟨a1, a2⟩, ⟨b1, b2⟩, c1, c2⟩ := hs
      simp only
      omega
  · simp [hk] at hfl

/-- C6: for every valid input text (every `v` line has three numbers, every
`f` line has three integers in `[1, vertex count]`), whatever the library and
the contents of the uninitialised locals, `loadOBJ` returns true and appends,
in file order, one vertex per `v` line, equal to the parsed `(x, y, z)` with
each component multiplied in `float` by the scale constant `2.2f`, and one
face per `f` line, equal to `(a-1, b-1, c-1)`, every stored index lying in
`[0, vertex count)`; lines with any other first token add nothing to either
list. -/
theorem loadOBJ_valid_input (lib : NumLib) (junk : Nat → Vertex F32 × Face) (text : String)
    (vertices : List (Vertex F32)) (faces : List Face)
    (h : ∀ line ∈ getlines text.data,
      ValidLine (vertices.length + countVertexLines (getlines text.data)) line) :
    loadOBJ lib junk (some text) vertices faces
        = (true, vertices ++ (getlines text.data).filterMap vertexOfLine,
            faces ++ (getlines text.data).filterMap faceOfLine) ∧
      ((getlines text.data).filterMap vertexOfLine).length
        = countVertexLines (getlines text.data) ∧
      ((getlines text.data).filterMap faceOfLine).length
        = countFaceLines (getlines text.data) ∧
      FacesInRange (vertices.length + countVertexLines (getlines text.data))
        ((getlines text.data).filterMap faceOfLine) := by
  refine ⟨?_, vertexOfLine_count _ _ h, faceOfLine_count _ _ h, faceOfLine_inRange _ _ h⟩
  simp only [loadOBJ, loadLines_valid _ lib junk _ h]

/-- Witness of C6: two `v` lines, a comment, a `vn` line, a blank line and an
`f` line.  The stored coordinates are the binary32 products with `2.2f`:
`1 * 2.2f = 9227469/4194304`, `0.5 * 2.2f = 9227469/8388608`,
`-1.25 * 2.2f = -11/4` and `100 * 2.2f = 220` after rounding. -/
theorem loadOBJ_valid_input_witness :
    (∀ line ∈ getlines "v 1 2 3\nv 0.5 -1.25 1e2\n# c\nvn 1 2 3\n\nf 1 2 2\n".data,
      ValidLine (0 + countVertexLines
        (getlines "v 1 2 3\nv 0.5 -1.25 1e2\n# c\nvn 1 2 3\n\nf 1 2 2\n".data)) line) ∧
    loadOBJ limitLib junk9 (some "v 1 2 3\nv 0.5 -1.25 1e2\n# c\nvn 1 2 3\n\nf 1 2 2\n") [] []
      = (true,
          [⟨F32.fin (9227469 / 4194304), F32.fin (9227469 / 2097152),
              F32.fin (3460301 / 524288)⟩,
            ⟨F32.fin (9227469 / 8388608), F32.fin (-11 / 4), F32.fin 220⟩],
          [⟨0, 1, 1⟩]) := by
  have hv : ∀ line ∈ getlines "v 1 2 3\nv 0.5 -1.25 1e2\n# c\nvn 1 2 3\n\nf 1 2 2\n".data,
      ValidLine (([] : List (Vertex F32)).length + countVertexLines
        (getlines "v 1 2 3\nv 0.5 -1.25 1e2\n# c\nvn 1 2 3\n\nf 1 2 2\n".data)) line := by
    decide!
  refine ⟨hv, ?_⟩
  rw [(loadOBJ_valid_input limitLib junk9 _ [] [] hv).1]
  decide!

end MeshLabLite
